import Mathlib

set_option maxRecDepth 100000
set_option linter.unusedSectionVars false

/-!
# Verification of `networkx/generators/trees.py`

This file embeds the two generators of `src/simulator/lib/networkx/generators/trees.py`
(`prefix_tree` and `random_tree`) in Lean and proves the spec's claims about them.

* `prefix_tree` is translated directly from the source.  The graph container it
  populates (`nx.DiGraph`) and the unique-node generator live outside `src/`, so they
  are modelled from the spec (§3/§6): a directed graph with per-node `source`
  attributes, set-semantics on nodes and edges (adding an existing edge is a no-op),
  and insertion-ordered storage; `generate_unique_node` is modelled as a counter of
  fresh identifiers, which never collide with the distinguished `NIL` node.
* `random_tree` is translated directly from the source; the Prüfer decoder
  `nx.from_prufer_sequence`, `nx.empty_graph` and the seeded random source are outside
  `src/` and are modelled from the spec (§4.3, §4.4, §6).
-/

/-- Node identifiers. `generate_unique_node` (outside `src/`) returns fresh uuid
strings; it is modelled by the `gen` counter.  The sentinel `NIL` node is the string
`"NIL"`, which never collides with a generated uuid. -/
inductive Node where
  | nil : Node
  | gen : Nat → Node
deriving DecidableEq, Repr

/-- The value of the `source` attribute of a trie node: Python `None` for the root,
the `NIL` marker string for the nil node, or an original path element. -/
inductive Src (α : Type) where
  | null : Src α
  | nilMark : Src α
  | elem : α → Src α
deriving DecidableEq, Repr

/-- Modelled from the spec: the Graph ADT (`nx.DiGraph`, an external collaborator per
§2/§6).  Nodes are stored with their optional `source` attribute in insertion order;
edges are ordered pairs stored in insertion order, without parallel edges. -/
structure DiGraph (α : Type) where
  nodes : List (Node × Option (Src α))
  edges : List (Node × Node)
deriving Repr

variable {α : Type} [DecidableEq α]

/-- The node-key list of a graph. -/
def DiGraph.keys (B : DiGraph α) : List Node := B.nodes.map Prod.fst

/-- Node membership (`v in B`). -/
def DiGraph.hasNode (B : DiGraph α) (v : Node) : Prop := v ∈ B.keys

instance (B : DiGraph α) (v : Node) : Decidable (B.hasNode v) := by
  unfold DiGraph.hasNode; infer_instance

/-- Modelled from the spec: `add_node(v, source=s)`. If the node exists its attribute
is updated, otherwise the node is appended. -/
def DiGraph.add_node (B : DiGraph α) (v : Node) (s : Option (Src α)) : DiGraph α :=
  if B.hasNode v then
    ⟨B.nodes.map (fun q => if q.1 = v then (q.1, s) else q), B.edges⟩
  else ⟨B.nodes ++ [(v, s)], B.edges⟩

/-- Modelled from the spec: `add_edge` silently adds a missing endpoint as an
attribute-less node (networkx behaviour). -/
def DiGraph.ensureNode (B : DiGraph α) (v : Node) : DiGraph α :=
  if B.hasNode v then B else ⟨B.nodes ++ [(v, none)], B.edges⟩

/-- Modelled from the spec: `add_edge(u, v)`; adding an edge that is already present
is a no-op (the graph is simple). -/
def DiGraph.add_edge (B : DiGraph α) (u v : Node) : DiGraph α :=
  let B1 := (B.ensureNode u).ensureNode v
  if (u, v) ∈ B1.edges then B1 else ⟨B1.nodes, B1.edges ++ [(u, v)]⟩

/-- First-match lookup of the `source` attribute. -/
def lookupSrc : List (Node × Option (Src α)) → Node → Option (Src α)
  | [], _ => none
  | q :: rest, v => if q.1 = v then q.2 else lookupSrc rest v

/-- The `source` attribute of a node (`B.node[v]['source']`). -/
def DiGraph.srcOf (B : DiGraph α) (v : Node) : Option (Src α) := lookupSrc B.nodes v

/-- All predecessors of `v`, in edge-insertion order (`B.predecessors(v)`). -/
def predsIn : List (Node × Node) → Node → List Node
  | [], _ => []
  | e :: rest, v => if e.2 = v then e.1 :: predsIn rest v else predsIn rest v

/-- All successors of `v`, in edge-insertion order (`B.successors(v)`). -/
def succsIn : List (Node × Node) → Node → List Node
  | [], _ => []
  | e :: rest, v => if e.1 = v then e.2 :: succsIn rest v else succsIn rest v

/-- `B.predecessors(v)`. -/
def DiGraph.preds (B : DiGraph α) (v : Node) : List Node := predsIn B.edges v

/-- `B.successors(v)`. -/
def DiGraph.succs (B : DiGraph α) (v : Node) : List Node := succsIn B.edges v

/-- In-degree of a node. -/
def DiGraph.inDeg (B : DiGraph α) (v : Node) : Nat := (B.preds v).length

/-- Out-degree of a node. -/
def DiGraph.outDeg (B : DiGraph α) (v : Node) : Nat := (B.succs v).length

/-- The first predecessor of `v`, i.e. `next(B.predecessors(v))`. -/
def DiGraph.predOf (B : DiGraph α) (v : Node) : Option Node := (B.preds v).head?

/-- First-occurrence deduplication (the key order of the Python `defaultdict`),
relative to an accumulator of already-seen elements. -/
def dedupFirstAux : List α → List α → List α
  | [], _ => []
  | a :: as, seen =>
    if a ∈ seen then dedupFirstAux as seen else a :: dedupFirstAux as (seen ++ [a])

/-- The distinct first elements of the nonempty paths, in encounter order. -/
def firstHeads (L : List (List α)) : List α := dedupFirstAux (L.filterMap List.head?) []

/-- `children[h]`: the tails of the paths whose head is `h`, in encounter order. -/
def tailsFor (h : α) (L : List (List α)) : List (List α) :=
  L.filterMap (fun p => match p with
    | [] => none
    | a :: rest => if a = h then some rest else none)

/-- The Python loop `for path in paths: ... children[child].append(rest)` viewed as a
grouping of the nonempty paths by head, in encounter order. -/
def groupPaths (L : List (List α)) : List (α × List (List α)) :=
  (firstHeads L).map (fun h => (h, tailsFor h L))

/-- The part of `_helper`'s first loop that adds `root → NIL` edges for empty paths. -/
def addTerminals (L : List (List α)) (root : Node) (B : DiGraph α) : DiGraph α :=
  L.foldl (fun B' p => if p.isEmpty then B'.add_edge root Node.nil else B') B

/-- Longest path length; used only as a recursion bound for `_helper` (the Python
recursion consumes one path element per level). -/
def maxLen (L : List (List α)) : Nat := L.foldr (fun p m => max p.length m) 0

/-- `_helper(paths, root, B)` of the source, with the fresh-identifier counter
threaded explicitly and a fuel argument bounding the recursion depth (any
`fuel > maxLen paths` computes the function exactly; `prefix_tree` passes one).
The second loop of `_helper` — one fresh child per distinct head, an edge from
the root, and a recursive call on the bucket of tails — is the fold. -/
def helper : Nat → List (List α) → Node → DiGraph α → Nat → DiGraph α × Nat
  | 0, _, _, B, c => (B, c)
  | f + 1, paths, root, B, c =>
    (groupPaths paths).foldl
      (fun r g =>
        let nh := Node.gen r.2
        let B1 := (r.1.add_node nh (some (Src.elem g.1))).add_edge root nh
        helper f g.2 nh B1 (r.2 + 1))
      (addTerminals paths root B, c)

/-- `prefix_tree(paths)` of the source: a root node with `source = None`, the `NIL`
node with `source = NIL`, then `_helper(paths, root, T)`; returns `(T, root)`. -/
def prefix_tree (paths : List (List α)) : DiGraph α × Node :=
  let root := Node.gen 0
  let T0 : DiGraph α := ⟨[], []⟩
  let T1 := T0.add_node root (some Src.null)
  let T2 := T1.add_node Node.nil (some Src.nilMark)
  ((helper (maxLen paths + 1) paths root T2 1).1, root)

/-- Walking upward from `v` to `root` along first predecessors, collecting the
`source` attributes in reverse order (the doctest recovery loop of `prefix_tree`).
The fuel bounds the number of visited nodes. -/
def upWalk : Nat → DiGraph α → Node → Node → Option (List α)
  | 0, _, _, _ => none
  | f + 1, B, root, v =>
    if v = root then some []
    else
      match B.predOf v, B.srcOf v with
      | some w, some (Src.elem a) => (upWalk f B root w).map (fun p => p ++ [a])
      | _, _ => none

/-- `l` is the node walk of path `p` from the root `r` downward: consecutive nodes are
joined by edges and the node entered by the `i`-th step carries `source = p[i]`. -/
def IsPathWalk (B : DiGraph α) (r : Node) (p : List α) (l : List Node) : Prop :=
  l.head? = some r ∧ l.length = p.length + 1 ∧
  ∀ i, i < p.length →
    ∃ v w a, l[i]? = some v ∧ l[i + 1]? = some w ∧ p[i]? = some a ∧
      (v, w) ∈ B.edges ∧ B.srcOf w = some (Src.elem a)

/-- Length of the longest common prefix of two lists. -/
def lcpLen : List α → List α → Nat
  | a :: p, b :: q => if a = b then lcpLen p q + 1 else 0
  | _, _ => 0

/-- Reachability along directed edges. -/
def DiGraph.Reaches (B : DiGraph α) (u v : Node) : Prop :=
  Relation.ReflTransGen (fun x y => (x, y) ∈ B.edges) u v

/-- Per-label uniqueness of children: a node never has two distinct successors
carrying the same `source` element (the defining property of a trie level). -/
def PLUC (B : DiGraph α) : Prop :=
  ∀ v w w' a, (v, w) ∈ B.edges → (v, w') ∈ B.edges →
    B.srcOf w = some (Src.elem a) → B.srcOf w' = some (Src.elem a) → w = w'

/-- Structural invariants of the graph under construction, relative to the
fresh-identifier counter `c`. -/
structure TrieInv (B : DiGraph α) (c : Nat) : Prop where
  nil_mem : B.hasNode Node.nil
  nil_src : B.srcOf Node.nil = some Src.nilMark
  key_bound : ∀ k, Node.gen k ∈ B.keys → k < c
  edge_bound : ∀ e ∈ B.edges, (∀ k, e.1 = Node.gen k → k < c) ∧ (∀ k, e.2 = Node.gen k → k < c)
  keys_nodup : B.keys.Nodup
  edges_nodup : B.edges.Nodup
  closed : ∀ e ∈ B.edges, B.hasNode e.1 ∧ B.hasNode e.2
  pluc : PLUC B
  srcs : ∀ q ∈ B.nodes, q.2 ≠ none

/-- The walk of path `p` hanging below `r`, with all evidence used by the claims:
`l` lists the visited nodes, every step goes to a freshly generated node (counter in
`[c, c')`) whose unique predecessor is the previous node and whose `source` is the
path element, and the final node `u` has an edge to `NIL`. -/
def ChainOK (B : DiGraph α) (r : Node) (c c' : Nat) (p : List α) (l : List Node) (u : Node) :
    Prop :=
  l.head? = some r ∧ l.length = p.length + 1 ∧ l.getLast? = some u ∧ (u, Node.nil) ∈ B.edges ∧
  ∀ i, i < p.length →
    ∃ v w a, l[i]? = some v ∧ l[i + 1]? = some w ∧ p[i]? = some a ∧
      B.predOf w = some v ∧ B.srcOf w = some (Src.elem a) ∧
      ∃ k, w = Node.gen k ∧ c ≤ k ∧ k < c'

/-- Shape of the nodes added by a `_helper` call with counter range `[c, c')`. -/
def NewNodesOK (c c' : Nat) (Δn : List (Node × Option (Src α))) : Prop :=
  ∀ q ∈ Δn, ∃ k a, q = (Node.gen k, some (Src.elem a)) ∧ c ≤ k ∧ k < c'

/-- Shape of the edges added by a `_helper` call rooted at `r` with counter range
`[c, c')`: sources are `r` or fresh nodes, targets are `NIL` or fresh nodes, and a
fresh target's source node was allocated earlier. -/
def NewEdgesOK (r : Node) (c c' : Nat) (Δe : List (Node × Node)) : Prop :=
  ∀ e ∈ Δe,
    (e.1 = r ∨ ∃ j, e.1 = Node.gen j ∧ c ≤ j ∧ j < c') ∧
    (e.2 = Node.nil ∨
      ∃ k, e.2 = Node.gen k ∧ c ≤ k ∧ k < c' ∧
        (e.1 = r ∨ ∃ j, e.1 = Node.gen j ∧ c ≤ j ∧ j < k))

/-- Everything a `_helper` call guarantees: the graph grows by well-shaped nodes and
edges, the invariants persist at the new counter, every fresh node has in-degree
exactly 1, the new `NIL` in-edges number `nilCount`, every path of `P` has a walk,
and every fresh node lies on the walk of some path of `P`. -/
def TriePost (B : DiGraph α) (c : Nat) (r : Node) (P : List (List α)) (nilCount : Nat)
    (B' : DiGraph α) (c' : Nat) : Prop :=
  c ≤ c' ∧ TrieInv B' c' ∧
  (∃ Δn Δe, B'.nodes = B.nodes ++ Δn ∧ B'.edges = B.edges ++ Δe ∧
    NewNodesOK c c' Δn ∧ NewEdgesOK r c c' Δe ∧
    (predsIn Δe Node.nil).length = nilCount ∧
    (∀ q ∈ Δn, ∃ p ∈ P, ∃ i l u, ChainOK B' r c c' p l u ∧ i < p.length ∧
      l[i + 1]? = some q.1)) ∧
  (∀ k, c ≤ k → k < c' → B'.inDeg (Node.gen k) = 1) ∧
  (∀ p ∈ P, ∃ l u, ChainOK B' r c c' p l u)

/-- The full paths represented by a list of groups. -/
def consAll (gs : List (α × List (List α))) : List (List α) :=
  gs.flatMap (fun g => g.2.map (fun t => g.1 :: t))

/-- The number of distinct tails over a list of groups. -/
def groupsNilCount (gs : List (α × List (List α))) : Nat :=
  (gs.map (fun g => g.2.toFinset.card)).sum

/-- The graph `prefix_tree` starts from: the root and the `NIL` node. -/
def initTrie (α : Type) : DiGraph α :=
  ⟨[(Node.gen 0, some Src.null), (Node.nil, some Src.nilMark)], []⟩

/-! ## The random-tree side -/

/-- NetworkX exceptions raised by the generators (`NetworkXPointlessConcept` for the
null graph, `NetworkXError` for invalid input). -/
inductive NetworkXError where
  | pointlessConcept : String → NetworkXError
  | invalidInput : String → NetworkXError
deriving DecidableEq, Repr

/-- An undirected graph, as a node list and an edge list. -/
structure UGraph where
  nodes : List Nat
  edges : List (Nat × Nat)
deriving DecidableEq, Repr

/-- Modelled from the spec: `nx.empty_graph(n)` (outside `src/`) — `n` nodes
`0, …, n-1` and no edges. -/
def empty_graph (n : Nat) : UGraph := ⟨List.range n, []⟩

/-- The smallest index `≥ i` (offset accumulator) whose entry equals 1:
"find the smallest-labeled node v with degree[v] == 1" of spec §4.3. -/
def findDeg1 : List Nat → Nat → Option Nat
  | [], _ => none
  | d :: ds, i => if d = 1 then some i else findDeg1 ds (i + 1)

/-- Decrement entry `i` of a degree list. -/
def decAt (deg : List Nat) (i : Nat) : List Nat := deg.set i (deg.getD i 0 - 1)

/-- The main loop of spec §4.3 step 2: for each `u` in the sequence pick the
smallest current leaf `v`, add edge `(u, v)` and decrement both degrees.  Returns
`none` if no leaf is available (never happens for in-range sequences). -/
def decodeLoop : List Nat → List Nat → List (Nat × Nat) → Option (List Nat × List (Nat × Nat))
  | [], deg, acc => some (deg, acc)
  | u :: rest, deg, acc =>
    match findDeg1 deg 0 with
    | none => none
    | some v => decodeLoop rest (decAt (decAt deg u) v) (acc ++ [(u, v)])

/-- Modelled from the spec: `nx.from_prufer_sequence` (outside `src/`), following
§4.3 literally: degree array `1 + count`, the leaf-picking loop, then the edge
between the two remaining degree-1 nodes; out-of-range values fail with
InvalidInput. -/
def from_prufer_sequence (seq : List Nat) : Except NetworkXError UGraph :=
  let n := seq.length + 2
  if ∀ u ∈ seq, u < n then
    let deg := (List.range n).map (fun i => 1 + seq.count i)
    match decodeLoop seq deg [] with
    | none => .error (.invalidInput "no current leaf available")
    | some r =>
      match (List.range n).filter (fun v => r.1.getD v 0 == 1) with
      | [a, b] => .ok ⟨List.range n, r.2 ++ [(a, b)]⟩
      | _ => .error (.invalidInput "malformed degree state")
  else .error (.invalidInput "sequence value out of range")

/-- Modelled from the spec: the seedable uniform integer sampler (§6; the Python
global `random` module is outside `src/`), as a deterministic linear-congruential
stream derived from the seed.  `sampleAt seed i` is the `i`-th raw draw. -/
def lcgNext (s : Nat) : Nat :=
  (6364136223846793005 * s + 1442695040888963407) % 18446744073709551616

/-- The state of the stream after `i + 1` steps from the seed. -/
def lcgState (seed : Int) : Nat → Nat
  | 0 => lcgNext ((seed.emod 18446744073709551616).toNat)
  | i + 1 => lcgNext (lcgState seed i)

/-- `random.choice(range(n))` for the `i`-th draw: a value uniform in `[0, n-1]`. -/
def choiceRange (seed : Int) (i : Nat) (n : Nat) : Nat := lcgState seed i % n

/-- `[random.choice(range(n)) for i in range(n - 2)]`. -/
def prufer_sample (n : Nat) (seed : Int) : List Nat :=
  (List.range (n - 2)).map (fun i => choiceRange seed i n)

/-- `random_tree(n, seed)` of the source: PointlessConcept for `n = 0`, a single-node
graph for `n = 1`, otherwise decode a sampled Prüfer sequence. -/
def random_tree (n : Nat) (seed : Int) : Except NetworkXError UGraph :=
  if n = 0 then .error (.pointlessConcept "the null graph is not a tree")
  else if n = 1 then .ok (empty_graph 1)
  else from_prufer_sequence (prufer_sample n seed)

/-- Undirected adjacency in an edge list. -/
def adjE (E : List (Nat × Nat)) (x y : Nat) : Prop := (x, y) ∈ E ∨ (y, x) ∈ E

/-- Every pair of nodes is joined by a path. -/
def UGraph.Connected (G : UGraph) : Prop :=
  ∀ u ∈ G.nodes, ∀ v ∈ G.nodes, Relation.ReflTransGen (adjE G.edges) u v

/-- A cycle of length `≥ 3`: an injective cyclic sequence of pairwise-adjacent
nodes. -/
def HasCycleE (E : List (Nat × Nat)) : Prop :=
  ∃ (m : Nat) (f : Nat → Nat), 3 ≤ m ∧
    (∀ i < m, ∀ j < m, f i = f j → i = j) ∧
    (∀ i < m, adjE E (f i) (f ((i + 1) % m)))

/-- Acyclicity of a simple undirected graph presented as an edge list: no self-loops,
no repeated edge in either orientation, and no cycle of length `≥ 3`. -/
def UGraph.Acyclic (G : UGraph) : Prop :=
  (∀ e ∈ G.edges, e.1 ≠ e.2) ∧
  (G.edges.Pairwise (fun e e' => e ≠ e' ∧ e ≠ (e'.2, e'.1))) ∧
  ¬ HasCycleE G.edges

/-! ## Basic lemmas about the graph primitives -/

theorem lookupSrc_append_left {l₁ l₂ : List (Node × Option (Src α))} {v : Node}
    (h : v ∈ l₁.map Prod.fst) : lookupSrc (l₁ ++ l₂) v = lookupSrc l₁ v := by
  induction l₁ with
  | nil => simp at h
  | cons q rest ih =>
    simp only [List.cons_append, lookupSrc, List.append_eq]
    by_cases hq : q.1 = v
    · simp [hq]
    · rw [if_neg hq, if_neg hq]
      apply ih
      simp only [List.map_cons, List.mem_cons] at h
      rcases h with h | h
      · exact absurd h.symm hq
      · exact h

theorem lookupSrc_append_right {l₁ l₂ : List (Node × Option (Src α))} {v : Node}
    (h : v ∉ l₁.map Prod.fst) : lookupSrc (l₁ ++ l₂) v = lookupSrc l₂ v := by
  induction l₁ with
  | nil => simp
  | cons q rest ih =>
    simp only [List.map_cons, List.mem_cons, not_or] at h
    simp only [List.cons_append, lookupSrc, List.append_eq, if_neg (fun hq : q.1 = v => h.1 hq.symm)]
    exact ih h.2

theorem lookupSrc_mem {l : List (Node × Option (Src α))} {v : Node}
    (h : v ∈ l.map Prod.fst) : (v, lookupSrc l v) ∈ l := by
  induction l with
  | nil => simp at h
  | cons q rest ih =>
    simp only [lookupSrc]
    by_cases hq : q.1 = v
    · rw [if_pos hq]
      have hqe : (v, q.2) = q := by rw [← hq]
      rw [hqe]
      exact List.mem_cons_self q rest
    · rw [if_neg hq]
      right
      apply ih
      simp only [List.map_cons, List.mem_cons] at h
      rcases h with h | h
      · exact absurd h.symm hq
      · exact h

theorem lookupSrc_eq_none {l : List (Node × Option (Src α))} {v : Node}
    (h : v ∉ l.map Prod.fst) : lookupSrc l v = none := by
  induction l with
  | nil => rfl
  | cons q rest ih =>
    simp only [List.map_cons, List.mem_cons, not_or] at h
    simp only [lookupSrc, if_neg (fun hq : q.1 = v => h.1 hq.symm)]
    exact ih h.2

theorem predsIn_append (E₁ E₂ : List (Node × Node)) (v : Node) :
    predsIn (E₁ ++ E₂) v = predsIn E₁ v ++ predsIn E₂ v := by
  induction E₁ with
  | nil => rfl
  | cons e rest ih =>
    simp only [List.cons_append, predsIn, List.append_eq]
    by_cases he : e.2 = v
    · rw [if_pos he, if_pos he, ih, List.cons_append]
    · rw [if_neg he, if_neg he, ih]

theorem mem_predsIn {E : List (Node × Node)} {v w : Node} :
    w ∈ predsIn E v ↔ (w, v) ∈ E := by
  induction E with
  | nil => simp [predsIn]
  | cons e rest ih =>
    simp only [predsIn, List.mem_cons]
    by_cases he : e.2 = v
    · rw [if_pos he]
      simp only [List.mem_cons, ih]
      constructor
      · rintro (rfl | h)
        · left; rw [← he]
        · right; exact h
      · rintro (rfl | h)
        · left; rfl
        · right; exact h
    · rw [if_neg he, ih]
      constructor
      · intro h; right; exact h
      · rintro (rfl | h)
        · exact absurd rfl he
        · exact h

theorem predsIn_eq_nil {E : List (Node × Node)} {v : Node}
    (h : ∀ e ∈ E, e.2 ≠ v) : predsIn E v = [] := by
  induction E with
  | nil => rfl
  | cons e rest ih =>
    simp only [predsIn, if_neg (h e (List.mem_cons_self e rest))]
    exact ih (fun e' he' => h e' (List.mem_cons_of_mem e he'))

theorem succsIn_append (E₁ E₂ : List (Node × Node)) (v : Node) :
    succsIn (E₁ ++ E₂) v = succsIn E₁ v ++ succsIn E₂ v := by
  induction E₁ with
  | nil => rfl
  | cons e rest ih =>
    simp only [List.cons_append, succsIn, List.append_eq]
    by_cases he : e.1 = v
    · rw [if_pos he, if_pos he, ih, List.cons_append]
    · rw [if_neg he, if_neg he, ih]

theorem mem_succsIn {E : List (Node × Node)} {v w : Node} :
    w ∈ succsIn E v ↔ (v, w) ∈ E := by
  induction E with
  | nil => simp [succsIn]
  | cons e rest ih =>
    simp only [succsIn, List.mem_cons]
    by_cases he : e.1 = v
    · rw [if_pos he]
      simp only [List.mem_cons, ih]
      constructor
      · rintro (rfl | h)
        · left; rw [← he]
        · right; exact h
      · rintro (rfl | h)
        · left; rfl
        · right; exact h
    · rw [if_neg he, ih]
      constructor
      · intro h; right; exact h
      · rintro (rfl | h)
        · exact absurd rfl he
        · exact h

theorem succsIn_eq_nil {E : List (Node × Node)} {v : Node}
    (h : ∀ e ∈ E, e.1 ≠ v) : succsIn E v = [] := by
  induction E with
  | nil => rfl
  | cons e rest ih =>
    simp only [succsIn, if_neg (h e (List.mem_cons_self e rest))]
    exact ih (fun e' he' => h e' (List.mem_cons_of_mem e he'))

theorem add_node_fresh (B : DiGraph α) (v : Node) (s : Option (Src α))
    (h : ¬ B.hasNode v) : B.add_node v s = ⟨B.nodes ++ [(v, s)], B.edges⟩ := by
  simp [DiGraph.add_node, if_neg h]

theorem ensureNode_of_mem (B : DiGraph α) (v : Node) (h : B.hasNode v) :
    B.ensureNode v = B := by
  simp [DiGraph.ensureNode, if_pos h]

theorem add_edge_eq (B : DiGraph α) (u v : Node) (hu : B.hasNode u) (hv : B.hasNode v)
    (he : (u, v) ∉ B.edges) : B.add_edge u v = ⟨B.nodes, B.edges ++ [(u, v)]⟩ := by
  simp only [DiGraph.add_edge, ensureNode_of_mem _ _ hu, ensureNode_of_mem _ _ hv]
  rw [if_neg he]

theorem add_edge_of_mem (B : DiGraph α) (u v : Node) (hu : B.hasNode u) (hv : B.hasNode v)
    (he : (u, v) ∈ B.edges) : B.add_edge u v = B := by
  simp only [DiGraph.add_edge, ensureNode_of_mem _ _ hu, ensureNode_of_mem _ _ hv]
  rw [if_pos he]

theorem hasNode_append (B : DiGraph α) (Δ : List (Node × Option (Src α))) (v : Node)
    (h : B.hasNode v) : DiGraph.hasNode ⟨B.nodes ++ Δ, B.edges⟩ v := by
  simp only [DiGraph.hasNode, DiGraph.keys, List.map_append, List.mem_append] at h ⊢
  exact Or.inl h

/-! ## Lemmas about grouping by first element -/

theorem dedupFirstAux_mem {l seen : List α} {b : α} :
    b ∈ dedupFirstAux l seen ↔ b ∈ l ∧ b ∉ seen := by
  induction l generalizing seen with
  | nil => simp [dedupFirstAux]
  | cons a as ih =>
    simp only [dedupFirstAux]
    by_cases ha : a ∈ seen
    · rw [if_pos ha, ih]
      simp only [List.mem_cons]
      constructor
      · rintro ⟨h1, h2⟩; exact ⟨Or.inr h1, h2⟩
      · rintro ⟨h1 | h1, h2⟩
        · subst h1; exact absurd ha h2
        · exact ⟨h1, h2⟩
    · rw [if_neg ha]
      simp only [List.mem_cons, ih, List.mem_append, List.mem_singleton, not_or]
      constructor
      · rintro (rfl | ⟨h1, h2, h3⟩)
        · exact ⟨Or.inl rfl, ha⟩
        · exact ⟨Or.inr h1, h2⟩
      · rintro ⟨h1 | h1, h2⟩
        · exact Or.inl h1
        · by_cases hb : b = a
          · exact Or.inl hb
          · exact Or.inr ⟨h1, h2, hb, by simp⟩

theorem dedupFirstAux_nodup (l seen : List α) : (dedupFirstAux l seen).Nodup := by
  induction l generalizing seen with
  | nil => exact List.nodup_nil
  | cons a as ih =>
    simp only [dedupFirstAux]
    by_cases ha : a ∈ seen
    · rw [if_pos ha]; exact ih seen
    · rw [if_neg ha]
      refine List.nodup_cons.mpr ⟨?_, ih _⟩
      intro hmem
      rcases dedupFirstAux_mem.mp hmem with ⟨_, h2⟩
      exact h2 (by simp)

theorem firstHeads_mem {L : List (List α)} {h : α} :
    h ∈ firstHeads L ↔ ∃ t, h :: t ∈ L := by
  simp only [firstHeads, dedupFirstAux_mem, List.mem_filterMap, List.not_mem_nil,
    not_false_iff, and_true]
  constructor
  · rintro ⟨p, hp, hh⟩
    cases p with
    | nil => simp at hh
    | cons a t =>
      simp only [List.head?] at hh
      injection hh with hh
      subst hh
      exact ⟨t, hp⟩
  · rintro ⟨t, ht⟩
    exact ⟨h :: t, ht, rfl⟩

theorem firstHeads_nodup (L : List (List α)) : (firstHeads L).Nodup :=
  dedupFirstAux_nodup _ _

theorem tailsFor_mem {L : List (List α)} {h : α} {t : List α} :
    t ∈ tailsFor h L ↔ h :: t ∈ L := by
  simp only [tailsFor, List.mem_filterMap]
  constructor
  · rintro ⟨p, hp, hmatch⟩
    cases p with
    | nil => simp at hmatch
    | cons a rest =>
      simp only at hmatch
      by_cases ha : a = h
      · rw [if_pos ha] at hmatch
        injection hmatch with hmatch
        subst ha hmatch
        exact hp
      · rw [if_neg ha] at hmatch
        exact absurd hmatch (by simp)
  · intro hmem
    exact ⟨h :: t, hmem, by simp⟩

theorem groupPaths_mem {L : List (List α)} {g : α × List (List α)} :
    g ∈ groupPaths L ↔ g.1 ∈ firstHeads L ∧ g.2 = tailsFor g.1 L := by
  simp only [groupPaths, List.mem_map]
  constructor
  · rintro ⟨h, hh, rfl⟩
    exact ⟨hh, rfl⟩
  · rintro ⟨hh, hg⟩
    exact ⟨g.1, hh, by rw [← hg]⟩

theorem groupPaths_heads (L : List (List α)) :
    (groupPaths L).map Prod.fst = firstHeads L := by
  simp [groupPaths, List.map_map, Function.comp_def]

theorem length_le_maxLen {L : List (List α)} {p : List α} (h : p ∈ L) :
    p.length ≤ maxLen L := by
  induction L with
  | nil => simp at h
  | cons q rest ih =>
    simp only [maxLen, List.foldr_cons]
    rcases List.mem_cons.mp h with rfl | h
    · exact Nat.le_max_left _ _
    · exact Nat.le_trans (ih h) (Nat.le_max_right _ _)

theorem maxLen_tailsFor {L : List (List α)} {h : α} {t : List α}
    (ht : t ∈ tailsFor h L) : t.length < maxLen L :=
  Nat.lt_of_lt_of_le (Nat.lt_succ_self _) (length_le_maxLen (tailsFor_mem.mp ht))

theorem tailsFor_ne_nil {L : List (List α)} {h : α} (hh : h ∈ firstHeads L) :
    tailsFor h L ≠ [] := by
  rcases firstHeads_mem.mp hh with ⟨t, ht⟩
  intro hnil
  rw [← List.mem_nil_iff t, ← hnil]
  exact tailsFor_mem.mpr ht

theorem consAll_mem {gs : List (α × List (List α))} {p : List α} :
    p ∈ consAll gs ↔ ∃ g ∈ gs, ∃ t ∈ g.2, p = g.1 :: t := by
  simp only [consAll, List.mem_flatMap, List.mem_map]
  constructor
  · rintro ⟨g, hg, t, ht, rfl⟩
    exact ⟨g, hg, t, ht, rfl⟩
  · rintro ⟨g, hg, t, ht, rfl⟩
    exact ⟨g, hg, t, ht, rfl⟩

theorem cons_mem_consAll_groupPaths {L : List (List α)} {h : α} {t : List α}
    (hmem : h :: t ∈ L) : h :: t ∈ consAll (groupPaths L) := by
  refine consAll_mem.mpr ⟨(h, tailsFor h L), ?_, t, ?_, rfl⟩
  · exact groupPaths_mem.mpr ⟨firstHeads_mem.mpr ⟨t, hmem⟩, rfl⟩
  · exact tailsFor_mem.mpr hmem

theorem consAll_mem_of_groupPaths {L : List (List α)} {p : List α}
    (hp : p ∈ consAll (groupPaths L)) : p ∈ L := by
  rcases consAll_mem.mp hp with ⟨g, hg, t, ht, rfl⟩
  rcases groupPaths_mem.mp hg with ⟨_, hg2⟩
  rw [hg2] at ht
  exact tailsFor_mem.mp ht

/-! ## The terminal-edge phase -/

theorem addTerminals_cons (p : List α) (L : List (List α)) (r : Node) (B : DiGraph α) :
    addTerminals (p :: L) r B
      = addTerminals L r (if p.isEmpty then B.add_edge r Node.nil else B) := rfl

theorem addTerminals_stable (L : List (List α)) (r : Node) (B : DiGraph α)
    (hr : B.hasNode r) (hn : B.hasNode Node.nil) (he : (r, Node.nil) ∈ B.edges) :
    addTerminals L r B = B := by
  induction L with
  | nil => rfl
  | cons p L' ih =>
    rw [addTerminals_cons]
    by_cases hp : p.isEmpty
    · rw [if_pos hp, add_edge_of_mem B r Node.nil hr hn he]
      exact ih
    · rw [if_neg hp]
      exact ih

theorem addTerminals_eq (L : List (List α)) (r : Node) (B : DiGraph α)
    (hr : B.hasNode r) (hn : B.hasNode Node.nil) (hout : ∀ y, (r, y) ∉ B.edges) :
    addTerminals L r B
      = if ([] : List α) ∈ L then ⟨B.nodes, B.edges ++ [(r, Node.nil)]⟩ else B := by
  induction L with
  | nil => simp [addTerminals]
  | cons p L' ih =>
    rw [addTerminals_cons]
    by_cases hp : p.isEmpty
    · rw [if_pos hp]
      have hpnil : p = [] := List.isEmpty_iff.mp hp
      have hB1 : B.add_edge r Node.nil = ⟨B.nodes, B.edges ++ [(r, Node.nil)]⟩ :=
        add_edge_eq B r Node.nil hr hn (hout Node.nil)
      rw [hB1]
      rw [addTerminals_stable L' r ⟨B.nodes, B.edges ++ [(r, Node.nil)]⟩ hr hn (by simp)]
      rw [if_pos (by rw [hpnil]; exact List.mem_cons_self _ _)]
    · rw [if_neg hp]
      have hpnil : p ≠ [] := fun hc => hp (by rw [hc]; rfl)
      rw [ih]
      by_cases hmem : ([] : List α) ∈ L'
      · rw [if_pos hmem, if_pos (List.mem_cons_of_mem _ hmem)]
      · rw [if_neg hmem, if_neg ?_]
        intro hc
        rcases List.mem_cons.mp hc with hc | hc
        · exact hpnil hc.symm
        · exact hmem hc

/-! ## Counting distinct paths through the grouping -/

theorem sum_toFinset_of_nodup (l : List α) (f : α → Nat) (h : l.Nodup) :
    l.toFinset.sum f = (l.map f).sum := by
  induction l with
  | nil => simp
  | cons a as ih =>
    simp only [List.toFinset_cons, List.map_cons, List.sum_cons]
    rw [Finset.sum_insert (by simpa using (List.nodup_cons.mp h).1), ih (List.nodup_cons.mp h).2]

theorem filter_nil_card (L : List (List α)) :
    (L.toFinset.filter (fun p => p = [])).card = if ([] : List α) ∈ L then 1 else 0 := by
  by_cases hm : ([] : List α) ∈ L
  · rw [if_pos hm]
    have : L.toFinset.filter (fun p => p = []) = {([] : List α)} := by
      ext q
      simp only [Finset.mem_filter, List.mem_toFinset, Finset.mem_singleton]
      constructor
      · rintro ⟨_, rfl⟩; rfl
      · rintro rfl; exact ⟨hm, rfl⟩
    rw [this, Finset.card_singleton]
  · rw [if_neg hm]
    have : L.toFinset.filter (fun p => p = []) = ∅ := by
      ext q
      simp only [Finset.mem_filter, List.mem_toFinset, Finset.not_mem_empty, iff_false, not_and]
      rintro hq rfl
      exact hm hq
    rw [this, Finset.card_empty]

theorem filter_ne_nil_eq_biUnion (L : List (List α)) :
    L.toFinset.filter (fun p => ¬ p = [])
      = (firstHeads L).toFinset.biUnion
          (fun h => (tailsFor h L).toFinset.image (fun t => h :: t)) := by
  ext q
  simp only [Finset.mem_filter, List.mem_toFinset, Finset.mem_biUnion, Finset.mem_image]
  constructor
  · rintro ⟨hq, hne⟩
    cases q with
    | nil => exact absurd rfl hne
    | cons a t =>
      exact ⟨a, firstHeads_mem.mpr ⟨t, hq⟩, t, tailsFor_mem.mpr hq, rfl⟩
  · rintro ⟨h, _, t, ht, rfl⟩
    exact ⟨tailsFor_mem.mp ht, by simp⟩

theorem toFinset_card_decomp (L : List (List α)) :
    L.toFinset.card
      = (if ([] : List α) ∈ L then 1 else 0) + groupsNilCount (groupPaths L) := by
  rw [← Finset.filter_card_add_filter_neg_card_eq_card (fun p => p = [])]
  rw [filter_nil_card, filter_ne_nil_eq_biUnion]
  congr 1
  rw [Finset.card_biUnion]
  · have himg : ∀ h : α, ((tailsFor h L).toFinset.image (fun t => h :: t)).card
        = (tailsFor h L).toFinset.card := by
      intro h
      exact Finset.card_image_of_injective _ (fun t t' het => by injection het)
    have : ((firstHeads L).toFinset.sum
        (fun h => ((tailsFor h L).toFinset.image (fun t => h :: t)).card))
        = (firstHeads L).toFinset.sum (fun h => (tailsFor h L).toFinset.card) :=
      Finset.sum_congr rfl (fun h _ => himg h)
    rw [this, sum_toFinset_of_nodup _ _ (firstHeads_nodup L)]
    simp only [groupsNilCount, groupPaths, List.map_map, Function.comp_def]
  · intro x _ y _ hxy
    simp only [Finset.disjoint_left, Finset.mem_image, List.mem_toFinset]
    rintro q ⟨t, _, rfl⟩ ⟨t', _, hc⟩
    injection hc with hc1 _
    exact hxy hc1.symm

/-! ## Stability of lookups under graph growth -/

theorem mem_of_head? {l : List Node} {a : Node} (h : l.head? = some a) : a ∈ l := by
  cases l with
  | nil => simp at h
  | cons x xs =>
    simp only [List.head?_cons, Option.some.injEq] at h
    subst h
    exact List.mem_cons_self _ _

theorem head?_append_some {l₁ l₂ : List Node} {a : Node} (h : l₁.head? = some a) :
    (l₁ ++ l₂).head? = some a := by
  cases l₁ with
  | nil => simp at h
  | cons x xs => simpa using h

theorem srcOf_mono {B B' : DiGraph α} {Δn : List (Node × Option (Src α))}
    (hn : B'.nodes = B.nodes ++ Δn) {v : Node} {s : Src α}
    (h : B.srcOf v = some s) : B'.srcOf v = some s := by
  have hv : v ∈ B.nodes.map Prod.fst := by
    by_contra hc
    rw [DiGraph.srcOf, lookupSrc_eq_none hc] at h
    exact Option.noConfusion h
  rw [DiGraph.srcOf, hn, lookupSrc_append_left hv]
  exact h

theorem predOf_mono {B B' : DiGraph α} {Δe : List (Node × Node)}
    (he : B'.edges = B.edges ++ Δe) {v w : Node}
    (h : B.predOf v = some w) : B'.predOf v = some w := by
  rw [DiGraph.predOf, DiGraph.preds, he, predsIn_append]
  exact head?_append_some h

theorem predOf_mem {B : DiGraph α} {v w : Node} (h : B.predOf v = some w) :
    (w, v) ∈ B.edges :=
  mem_predsIn.mp (mem_of_head? h)

theorem chainOK_mono {B B' : DiGraph α} {r : Node} {c₁ c₁' c₂ c₂' : Nat} {p : List α}
    {l : List Node} {u : Node} {Δn : List (Node × Option (Src α))} {Δe : List (Node × Node)}
    (hc : ChainOK B r c₁ c₁' p l u)
    (hn : B'.nodes = B.nodes ++ Δn) (he : B'.edges = B.edges ++ Δe)
    (hlo : c₂ ≤ c₁) (hhi : c₁' ≤ c₂') : ChainOK B' r c₂ c₂' p l u := by
  obtain ⟨h1, h2, h3, h4, h5⟩ := hc
  refine ⟨h1, h2, h3, by rw [he]; exact List.mem_append_left _ h4, ?_⟩
  intro i hi
  obtain ⟨v, w, a, hv, hw, ha, hpred, hsrc, k, hk, hk1, hk2⟩ := h5 i hi
  exact ⟨v, w, a, hv, hw, ha, predOf_mono he hpred, srcOf_mono hn hsrc,
    k, hk, Nat.le_trans hlo hk1, Nat.lt_of_lt_of_le hk2 hhi⟩

theorem chainOK_cons {B : DiGraph α} {r nh : Node} {c c' cl ch : Nat} {h : α} {p : List α}
    {l : List Node} {u : Node}
    (hc : ChainOK B nh c c' p l u)
    (hpred : B.predOf nh = some r) (hsrc : B.srcOf nh = some (Src.elem h))
    (hk : ∃ k, nh = Node.gen k ∧ cl ≤ k ∧ k < ch)
    (hcl : cl ≤ c) (hch : c' ≤ ch) :
    ChainOK B r cl ch (h :: p) (r :: l) u := by
  obtain ⟨h1, h2, h3, h4, h5⟩ := hc
  have hlnil : l ≠ [] := by
    intro hc'
    rw [hc'] at h2
    simp at h2
  refine ⟨rfl, by simp [h2], ?_, h4, ?_⟩
  · cases l with
    | nil => exact absurd rfl hlnil
    | cons x xs => rw [← h3]; rfl
  · intro i hi
    cases i with
    | zero =>
      refine ⟨r, nh, h, by simp, ?_, by simp, hpred, hsrc, hk⟩
      have : l[0]? = some nh := by
        cases l with
        | nil => exact absurd rfl hlnil
        | cons x xs =>
          simp only [List.head?_cons, Option.some.injEq] at h1
          simp [h1]
      simpa using this
    | succ j =>
      have hj : j < p.length := by simpa using hi
      obtain ⟨v, w, a, hv, hw, ha, hpred', hsrc', k, hkk, hk1, hk2⟩ := h5 j hj
      refine ⟨v, w, a, by simpa using hv, by simpa using hw, by simpa using ha,
        hpred', hsrc', k, hkk, Nat.le_trans hcl hk1, Nat.lt_of_lt_of_le hk2 hch⟩

theorem nodup_append_singleton {β : Type} [DecidableEq β] {l : List β} {a : β}
    (h : l.Nodup) (ha : a ∉ l) : (l ++ [a]).Nodup := by
  rw [List.nodup_append]
  refine ⟨h, List.nodup_singleton a, ?_⟩
  intro b hb
  simp only [List.mem_singleton]
  intro hab
  subst hab
  exact ha hb

theorem lookupSrc_fresh_entry {n₁ : List (Node × Option (Src α))}
    {Δ : List (Node × Option (Src α))} {v : Node} {s : Option (Src α)}
    (hv : v ∉ n₁.map Prod.fst) :
    lookupSrc ((n₁ ++ [(v, s)]) ++ Δ) v = s := by
  rw [lookupSrc_append_left (by simp), lookupSrc_append_right hv]
  simp [lookupSrc]

theorem maxLen_lt_of {L : List (List α)} {n : Nat} (hn : 0 < n)
    (h : ∀ p ∈ L, p.length < n) : maxLen L < n := by
  induction L with
  | nil => simpa [maxLen] using hn
  | cons q rest ih =>
    simp only [maxLen, List.foldr_cons]
    exact Nat.max_lt.mpr ⟨h q (List.mem_cons_self _ _),
      ih (fun p hp => h p (List.mem_cons_of_mem _ hp))⟩
theorem TrieInv_extend {B : DiGraph α} {c k₀ : Nat} {r : Node} {h : α}
    (hinv : TrieInv B c) (hr : r = Node.gen k₀) (hk : k₀ < c) (hmem : B.hasNode r)
    (hlabel : ∀ w, (r, w) ∈ B.edges → B.srcOf w ≠ some (Src.elem h)) :
    TrieInv (⟨B.nodes ++ [(Node.gen c, some (Src.elem h))],
      B.edges ++ [(r, Node.gen c)]⟩ : DiGraph α) (c + 1) := by
  have hfresh : Node.gen c ∉ B.keys := fun hc' => absurd (hinv.key_bound c hc') (by omega)
  have hnotin : (r, Node.gen c) ∉ B.edges :=
    fun hc' => absurd ((hinv.edge_bound _ hc').2 c rfl) (by omega)
  have hsrc1 : ∀ w, w ∈ B.keys →
      lookupSrc (B.nodes ++ [(Node.gen c, some (Src.elem h))]) w = B.srcOf w :=
    fun w hw => lookupSrc_append_left hw
  refine ⟨?_, ?_, ?_, ?_, ?_, ?_, ?_, ?_, ?_⟩
  · exact hasNode_append B _ _ hinv.nil_mem
  · show lookupSrc (B.nodes ++ [(Node.gen c, some (Src.elem h))]) Node.nil = _
    rw [hsrc1 _ hinv.nil_mem]
    exact hinv.nil_src
  · intro k hk'
    show k < c + 1
    simp only [DiGraph.keys, List.map_append, List.mem_append] at hk'
    rcases hk' with hk' | hk'
    · exact Nat.lt_succ_of_lt (hinv.key_bound k hk')
    · simp only [List.map_cons, List.map_nil, List.mem_singleton] at hk'
      injection hk' with hk'
      omega
  · intro e he
    rcases List.mem_append.mp he with he | he
    · obtain ⟨hb1, hb2⟩ := hinv.edge_bound e he
      exact ⟨fun k hk' => Nat.lt_succ_of_lt (hb1 k hk'),
        fun k hk' => Nat.lt_succ_of_lt (hb2 k hk')⟩
    · simp only [List.mem_singleton] at he
      subst he
      constructor
      · intro k hk'
        rw [hr] at hk'
        injection hk' with hk'
        omega
      · intro k hk'
        injection hk' with hk'
        omega
  · show (List.map Prod.fst (B.nodes ++ [(Node.gen c, some (Src.elem h))])).Nodup
    rw [List.map_append]
    exact nodup_append_singleton hinv.keys_nodup hfresh
  · exact nodup_append_singleton hinv.edges_nodup hnotin
  · intro e he
    rcases List.mem_append.mp he with he | he
    · obtain ⟨h1', h2'⟩ := hinv.closed e he
      exact ⟨hasNode_append B _ _ h1', hasNode_append B _ _ h2'⟩
    · simp only [List.mem_singleton] at he
      subst he
      refine ⟨hasNode_append B _ _ hmem, ?_⟩
      show Node.gen c ∈ List.map Prod.fst (B.nodes ++ [(Node.gen c, some (Src.elem h))])
      simp
  · intro v w w' a hw hw' hsw hsw'
    have hnew : lookupSrc (B.nodes ++ [(Node.gen c, some (Src.elem h))]) (Node.gen c)
        = some (Src.elem h) := by
      rw [lookupSrc_append_right hfresh]
      simp [lookupSrc]
    have hold : ∀ y, (∃ x, (x, y) ∈ B.edges) → ∀ b : α,
        lookupSrc (B.nodes ++ [(Node.gen c, some (Src.elem h))]) y = some (Src.elem b) →
        B.srcOf y = some (Src.elem b) := by
      rintro y ⟨x, hxy⟩ b hsy
      rw [hsrc1 y (hinv.closed _ hxy).2] at hsy
      exact hsy
    rcases List.mem_append.mp hw with hw | hw <;>
      rcases List.mem_append.mp hw' with hw' | hw'
    · exact hinv.pluc v w w' a hw hw' (hold w ⟨v, hw⟩ a hsw) (hold w' ⟨v, hw'⟩ a hsw')
    · simp only [List.mem_singleton, Prod.mk.injEq] at hw'
      obtain ⟨hveq, hweq⟩ := hw'
      subst hweq
      rw [show (⟨B.nodes ++ [(Node.gen c, some (Src.elem h))],
          B.edges ++ [(r, Node.gen c)]⟩ : DiGraph α).srcOf (Node.gen c)
          = some (Src.elem h) from hnew] at hsw'
      injection hsw' with hsw'
      injection hsw' with hsw'
      subst hsw'
      rw [hveq] at hw
      exact absurd (hold w ⟨r, hw⟩ _ hsw) (hlabel w hw)
    · simp only [List.mem_singleton, Prod.mk.injEq] at hw
      obtain ⟨hveq, hweq⟩ := hw
      subst hweq
      rw [show (⟨B.nodes ++ [(Node.gen c, some (Src.elem h))],
          B.edges ++ [(r, Node.gen c)]⟩ : DiGraph α).srcOf (Node.gen c)
          = some (Src.elem h) from hnew] at hsw
      injection hsw with hsw
      injection hsw with hsw
      subst hsw
      rw [hveq] at hw'
      exact absurd (hold w' ⟨r, hw'⟩ _ hsw') (hlabel w' hw')
    · simp only [List.mem_singleton, Prod.mk.injEq] at hw hw'
      rw [hw.2, hw'.2]
  · intro q hq
    rcases List.mem_append.mp hq with hq | hq
    · exact hinv.srcs q hq
    · simp only [List.mem_singleton] at hq
      subst hq
      simp
theorem trie_fold (f : Nat)
    (IH : ∀ (paths : List (List α)) (r : Node) (B : DiGraph α) (c k₀ : Nat),
      maxLen paths < f → r = Node.gen k₀ → k₀ < c → B.hasNode r → TrieInv B c →
      (∀ y, (r, y) ∉ B.edges) →
      TriePost B c r paths paths.toFinset.card (helper f paths r B c).1
        (helper f paths r B c).2) :
    ∀ (gs : List (α × List (List α))) (r : Node) (B : DiGraph α) (c k₀ : Nat),
      (∀ g ∈ gs, maxLen g.2 < f) →
      (∀ g ∈ gs, g.2 ≠ []) →
      (gs.map Prod.fst).Nodup →
      (∀ g ∈ gs, ∀ w, (r, w) ∈ B.edges → B.srcOf w ≠ some (Src.elem g.1)) →
      r = Node.gen k₀ → k₀ < c → B.hasNode r → TrieInv B c →
      TriePost B c r (consAll gs) (groupsNilCount gs)
        (gs.foldl (fun racc g =>
          helper f g.2 (Node.gen racc.2)
            ((racc.1.add_node (Node.gen racc.2) (some (Src.elem g.1))).add_edge r
              (Node.gen racc.2)) (racc.2 + 1)) (B, c)).1
        (gs.foldl (fun racc g =>
          helper f g.2 (Node.gen racc.2)
            ((racc.1.add_node (Node.gen racc.2) (some (Src.elem g.1))).add_edge r
              (Node.gen racc.2)) (racc.2 + 1)) (B, c)).2 := by
  intro gs
  induction gs with
  | nil =>
    intro r B c k₀ _ _ _ _ _ _ _ hinv
    simp only [List.foldl_nil]
    refine ⟨Nat.le_refl c, hinv,
      ⟨[], [], by simp, by simp, fun q hq => absurd hq (List.not_mem_nil q),
        fun e he => absurd he (List.not_mem_nil e), rfl,
        fun q hq => absurd hq (List.not_mem_nil q)⟩,
      fun k hk1 hk2 => absurd (Nat.lt_of_le_of_lt hk1 hk2) (Nat.lt_irrefl c),
      fun p hp => absurd hp (by simp [consAll])⟩
  | cons g gs IHgs =>
    obtain ⟨h, tails⟩ := g
    intro r B c k₀ hml hne hnodup hlabels hr hk hmem hinv
    have hnodup' : (h :: gs.map Prod.fst).Nodup := by simpa using hnodup
    simp only [List.foldl_cons]
    -- the fresh child node and the graph after adding it
    have hfresh : Node.gen c ∉ B.keys := fun hc' => absurd (hinv.key_bound c hc') (by omega)
    have hrnh : r ≠ Node.gen c := by
      rw [hr]; intro hc'; injection hc' with hc'; omega
    have hnotin : (r, Node.gen c) ∉ B.edges :=
      fun hc' => absurd ((hinv.edge_bound _ hc').2 c rfl) (by omega)
    have hB1 : (B.add_node (Node.gen c) (some (Src.elem h))).add_edge r (Node.gen c)
        = ⟨B.nodes ++ [(Node.gen c, some (Src.elem h))], B.edges ++ [(r, Node.gen c)]⟩ := by
      rw [add_node_fresh B _ _ hfresh]
      refine add_edge_eq _ _ _ ?_ ?_ hnotin
      · exact hasNode_append B _ r hmem
      · show Node.gen c ∈ List.map Prod.fst (B.nodes ++ [(Node.gen c, some (Src.elem h))])
        simp
    rw [hB1]
    -- the invariant for the extended graph at counter c+1
    have hinv1 := TrieInv_extend hinv hr hk hmem
      (fun w hw => hlabels (h, tails) (List.mem_cons_self _ _) w hw)
    -- apply the fuel induction hypothesis to the subtree call
    have hnh_out : ∀ y, (Node.gen c, y) ∉
        (⟨B.nodes ++ [(Node.gen c, some (Src.elem h))],
          B.edges ++ [(r, Node.gen c)]⟩ : DiGraph α).edges := by
      intro y hy
      rcases List.mem_append.mp hy with hy | hy
      · exact absurd ((hinv.edge_bound _ hy).1 c rfl) (by omega)
      · simp only [List.mem_singleton, Prod.mk.injEq] at hy
        exact hrnh hy.1.symm
    have P1 := IH tails (Node.gen c)
      ⟨B.nodes ++ [(Node.gen c, some (Src.elem h))], B.edges ++ [(r, Node.gen c)]⟩
      (c + 1) c
      (hml (h, tails) (List.mem_cons_self _ _)) rfl (Nat.lt_succ_self c)
      (by show Node.gen c ∈ List.map Prod.fst (B.nodes ++ [(Node.gen c, some (Src.elem h))])
          simp)
      hinv1 hnh_out
    obtain ⟨hc1, hinv2, ⟨Δn1, Δe1, hn1, he1, hNN1, hNE1, hcount1, hrepr1⟩, hdeg1, hchain1⟩ := P1
    -- facts about the result of the subtree call
    have hn1' : (helper f tails (Node.gen c)
        ⟨B.nodes ++ [(Node.gen c, some (Src.elem h))], B.edges ++ [(r, Node.gen c)]⟩
        (c + 1)).1.nodes = B.nodes ++ ([(Node.gen c, some (Src.elem h))] ++ Δn1) := by
      rw [hn1]; simp
    have he1' : (helper f tails (Node.gen c)
        ⟨B.nodes ++ [(Node.gen c, some (Src.elem h))], B.edges ++ [(r, Node.gen c)]⟩
        (c + 1)).1.edges = B.edges ++ ([(r, Node.gen c)] ++ Δe1) := by
      rw [he1]; simp
    have hmem2 : (helper f tails (Node.gen c)
        ⟨B.nodes ++ [(Node.gen c, some (Src.elem h))], B.edges ++ [(r, Node.gen c)]⟩
        (c + 1)).1.hasNode r := by
      rw [DiGraph.hasNode, DiGraph.keys, hn1', List.map_append, List.mem_append]
      exact Or.inl hmem
    have hsrc2_old : ∀ w, w ∈ B.keys → (helper f tails (Node.gen c)
        ⟨B.nodes ++ [(Node.gen c, some (Src.elem h))], B.edges ++ [(r, Node.gen c)]⟩
        (c + 1)).1.srcOf w = B.srcOf w := by
      intro w hw
      rw [DiGraph.srcOf, hn1', ← List.append_assoc]
      rw [lookupSrc_append_left (by simp only [List.map_append, List.mem_append]; exact Or.inl hw)]
      exact lookupSrc_append_left hw
    have hsrc2_nh : (helper f tails (Node.gen c)
        ⟨B.nodes ++ [(Node.gen c, some (Src.elem h))], B.edges ++ [(r, Node.gen c)]⟩
        (c + 1)).1.srcOf (Node.gen c) = some (Src.elem h) := by
      rw [DiGraph.srcOf, hn1', ← List.append_assoc]
      exact lookupSrc_fresh_entry hfresh
    -- labels of r's children in the subtree result avoid the remaining heads
    have hlabels2 : ∀ g' ∈ gs, ∀ w, (r, w) ∈ (helper f tails (Node.gen c)
        ⟨B.nodes ++ [(Node.gen c, some (Src.elem h))], B.edges ++ [(r, Node.gen c)]⟩
        (c + 1)).1.edges →
        (helper f tails (Node.gen c)
          ⟨B.nodes ++ [(Node.gen c, some (Src.elem h))], B.edges ++ [(r, Node.gen c)]⟩
          (c + 1)).1.srcOf w ≠ some (Src.elem g'.1) := by
      intro g' hg' w hw hsw
      rw [he1'] at hw
      rcases List.mem_append.mp hw with hw | hw
      · rw [hsrc2_old w (hinv.closed _ hw).2] at hsw
        exact hlabels g' (List.mem_cons_of_mem _ hg') w hw hsw
      · rcases List.mem_append.mp hw with hw | hw
        · simp only [List.mem_singleton, Prod.mk.injEq] at hw
          rw [hw.2] at hsw
          rw [hsrc2_nh] at hsw
          injection hsw with hsw
          injection hsw with hsw
          have hmm : g'.1 ∈ gs.map Prod.fst := List.mem_map_of_mem Prod.fst hg'
          rw [← hsw] at hmm
          exact (List.nodup_cons.mp hnodup').1 hmm
        · rcases (hNE1 _ hw).1 with hfst | ⟨j, hj, hj1, hj2⟩
          · rw [hr] at hfst
            injection hfst with hfst
            omega
          · rw [hr] at hj
            injection hj with hj
            omega
    -- apply the group induction hypothesis to the remaining groups
    have P2 := IHgs r (helper f tails (Node.gen c)
        ⟨B.nodes ++ [(Node.gen c, some (Src.elem h))], B.edges ++ [(r, Node.gen c)]⟩
        (c + 1)).1
      (helper f tails (Node.gen c)
        ⟨B.nodes ++ [(Node.gen c, some (Src.elem h))], B.edges ++ [(r, Node.gen c)]⟩
        (c + 1)).2 k₀
      (fun g' hg' => hml g' (List.mem_cons_of_mem _ hg'))
      (fun g' hg' => hne g' (List.mem_cons_of_mem _ hg'))
      (List.nodup_cons.mp hnodup').2
      hlabels2 hr (by omega) hmem2 hinv2
    rw [show ((helper f tails (Node.gen c)
        ⟨B.nodes ++ [(Node.gen c, some (Src.elem h))], B.edges ++ [(r, Node.gen c)]⟩
        (c + 1)).1,
      (helper f tails (Node.gen c)
        ⟨B.nodes ++ [(Node.gen c, some (Src.elem h))], B.edges ++ [(r, Node.gen c)]⟩
        (c + 1)).2)
      = helper f tails (Node.gen c)
        ⟨B.nodes ++ [(Node.gen c, some (Src.elem h))], B.edges ++ [(r, Node.gen c)]⟩
        (c + 1) from rfl] at P2
    obtain ⟨hc2, hinv3, ⟨Δn2, Δe2, hn2, he2, hNN2, hNE2, hcount2, hrepr2⟩, hdeg2, hchain2⟩ := P2
    -- combined frame
    have hn3 : (gs.foldl (fun racc g =>
          helper f g.2 (Node.gen racc.2)
            ((racc.1.add_node (Node.gen racc.2) (some (Src.elem g.1))).add_edge r
              (Node.gen racc.2)) (racc.2 + 1))
          (helper f tails (Node.gen c)
            ⟨B.nodes ++ [(Node.gen c, some (Src.elem h))], B.edges ++ [(r, Node.gen c)]⟩
            (c + 1))).1.nodes
        = B.nodes ++ ([(Node.gen c, some (Src.elem h))] ++ Δn1 ++ Δn2) := by
      rw [hn2, hn1']
      simp
    have he3 : (gs.foldl (fun racc g =>
          helper f g.2 (Node.gen racc.2)
            ((racc.1.add_node (Node.gen racc.2) (some (Src.elem g.1))).add_edge r
              (Node.gen racc.2)) (racc.2 + 1))
          (helper f tails (Node.gen c)
            ⟨B.nodes ++ [(Node.gen c, some (Src.elem h))], B.edges ++ [(r, Node.gen c)]⟩
            (c + 1))).1.edges
        = B.edges ++ ([(r, Node.gen c)] ++ Δe1 ++ Δe2) := by
      rw [he2, he1']
      simp
    -- predecessors and source of the fresh child in the final graph
    have hpred_nh : (gs.foldl (fun racc g =>
          helper f g.2 (Node.gen racc.2)
            ((racc.1.add_node (Node.gen racc.2) (some (Src.elem g.1))).add_edge r
              (Node.gen racc.2)) (racc.2 + 1))
          (helper f tails (Node.gen c)
            ⟨B.nodes ++ [(Node.gen c, some (Src.elem h))], B.edges ++ [(r, Node.gen c)]⟩
            (c + 1))).1.predOf (Node.gen c) = some r := by
      rw [DiGraph.predOf, DiGraph.preds, he3, predsIn_append, predsIn_append, predsIn_append]
      rw [predsIn_eq_nil (fun e he' => fun hc' =>
        absurd ((hinv.edge_bound e he').2 c (by rw [hc'])) (by omega))]
      simp [predsIn]
    have hsrc3_nh : (gs.foldl (fun racc g =>
          helper f g.2 (Node.gen racc.2)
            ((racc.1.add_node (Node.gen racc.2) (some (Src.elem g.1))).add_edge r
              (Node.gen racc.2)) (racc.2 + 1))
          (helper f tails (Node.gen c)
            ⟨B.nodes ++ [(Node.gen c, some (Src.elem h))], B.edges ++ [(r, Node.gen c)]⟩
            (c + 1))).1.srcOf (Node.gen c) = some (Src.elem h) := by
      rw [DiGraph.srcOf, hn3]
      rw [show B.nodes ++ ([(Node.gen c, some (Src.elem h))] ++ Δn1 ++ Δn2)
            = (B.nodes ++ [(Node.gen c, some (Src.elem h))]) ++ (Δn1 ++ Δn2) by simp]
      exact lookupSrc_fresh_entry hfresh
    -- the walk for h :: t, for t ∈ tails
    have mkChain : ∀ t ∈ tails, ∃ l u,
        ChainOK (gs.foldl (fun racc g =>
          helper f g.2 (Node.gen racc.2)
            ((racc.1.add_node (Node.gen racc.2) (some (Src.elem g.1))).add_edge r
              (Node.gen racc.2)) (racc.2 + 1))
          (helper f tails (Node.gen c)
            ⟨B.nodes ++ [(Node.gen c, some (Src.elem h))], B.edges ++ [(r, Node.gen c)]⟩
            (c + 1))).1 r c
        (gs.foldl (fun racc g =>
          helper f g.2 (Node.gen racc.2)
            ((racc.1.add_node (Node.gen racc.2) (some (Src.elem g.1))).add_edge r
              (Node.gen racc.2)) (racc.2 + 1))
          (helper f tails (Node.gen c)
            ⟨B.nodes ++ [(Node.gen c, some (Src.elem h))], B.edges ++ [(r, Node.gen c)]⟩
            (c + 1))).2 (h :: t) l u ∧
        l[1]? = some (Node.gen c) := by
      intro t ht
      obtain ⟨l1, u1, hch⟩ := hchain1 t ht
      have hch3 := chainOK_mono hch hn2 he2 (Nat.le_refl _) hc2
      have hcons := chainOK_cons hch3 hpred_nh hsrc3_nh
        ⟨c, rfl, Nat.le_refl c, Nat.lt_of_lt_of_le (Nat.lt_succ_self c) (Nat.le_trans hc1 hc2)⟩
        (Nat.le_succ c) (Nat.le_refl _)
      refine ⟨r :: l1, u1, hcons, ?_⟩
      obtain ⟨hh1, hh2, _, _, _⟩ := hch
      have hl10 : l1[0]? = some (Node.gen c) := by
        cases l1 with
        | nil => simp at hh2
        | cons x xs =>
          simp only [List.head?_cons, Option.some.injEq] at hh1
          simp [hh1]
      simpa using hl10
    -- assemble the final TriePost
    have hcc3 : c ≤ (gs.foldl (fun racc g =>
          helper f g.2 (Node.gen racc.2)
            ((racc.1.add_node (Node.gen racc.2) (some (Src.elem g.1))).add_edge r
              (Node.gen racc.2)) (racc.2 + 1))
          (helper f tails (Node.gen c)
            ⟨B.nodes ++ [(Node.gen c, some (Src.elem h))], B.edges ++ [(r, Node.gen c)]⟩
            (c + 1))).2 := by omega
    refine ⟨hcc3, hinv3,
      ⟨[(Node.gen c, some (Src.elem h))] ++ Δn1 ++ Δn2,
       [(r, Node.gen c)] ++ Δe1 ++ Δe2, hn3, he3, ?_, ?_, ?_, ?_⟩, ?_, ?_⟩
    · -- NewNodesOK
      intro q hq
      rcases List.mem_append.mp hq with hq | hq
      · rcases List.mem_append.mp hq with hq | hq
        · simp only [List.mem_singleton] at hq
          exact ⟨c, h, hq, Nat.le_refl c, by omega⟩
        · obtain ⟨k, a, hqe, hk1, hk2⟩ := hNN1 q hq
          exact ⟨k, a, hqe, by omega, by omega⟩
      · obtain ⟨k, a, hqe, hk1, hk2⟩ := hNN2 q hq
        exact ⟨k, a, hqe, by omega, by omega⟩
    · -- NewEdgesOK
      intro e he'
      rcases List.mem_append.mp he' with he' | he'
      · rcases List.mem_append.mp he' with he' | he'
        · simp only [List.mem_singleton] at he'
          subst he'
          exact ⟨Or.inl rfl, Or.inr ⟨c, rfl, Nat.le_refl c, by omega, Or.inl rfl⟩⟩
        · obtain ⟨hfst, hsnd⟩ := hNE1 e he'
          constructor
          · rcases hfst with hfst | ⟨j, hj1, hj2, hj3⟩
            · exact Or.inr ⟨c, hfst, Nat.le_refl c, by omega⟩
            · exact Or.inr ⟨j, hj1, by omega, by omega⟩
          · rcases hsnd with hsnd | ⟨k, hk1, hk2, hk3, hpar⟩
            · exact Or.inl hsnd
            · refine Or.inr ⟨k, hk1, by omega, by omega, ?_⟩
              rcases hpar with hpar | ⟨j, hj1, hj2, hj3⟩
              · exact Or.inr ⟨c, hpar, Nat.le_refl c, by omega⟩
              · exact Or.inr ⟨j, hj1, by omega, hj3⟩
      · obtain ⟨hfst, hsnd⟩ := hNE2 e he'
        constructor
        · rcases hfst with hfst | ⟨j, hj1, hj2, hj3⟩
          · exact Or.inl hfst
          · exact Or.inr ⟨j, hj1, by omega, by omega⟩
        · rcases hsnd with hsnd | ⟨k, hk1, hk2, hk3, hpar⟩
          · exact Or.inl hsnd
          · refine Or.inr ⟨k, hk1, by omega, by omega, ?_⟩
            rcases hpar with hpar | ⟨j, hj1, hj2, hj3⟩
            · exact Or.inl hpar
            · exact Or.inr ⟨j, hj1, by omega, hj3⟩
    · -- NIL in-edge count
      rw [predsIn_append, predsIn_append, List.length_append, List.length_append]
      rw [show predsIn [(r, Node.gen c)] Node.nil = [] from rfl]
      rw [hcount1, hcount2]
      simp [groupsNilCount]
    · -- representation of new nodes
      intro q hq
      rcases List.mem_append.mp hq with hq | hq
      · rcases List.mem_append.mp hq with hq | hq
        · simp only [List.mem_singleton] at hq
          obtain ⟨t0, ht0⟩ := List.exists_mem_of_ne_nil _ (hne (h, tails) (List.mem_cons_self _ _))
          obtain ⟨l, u, hch, hl1⟩ := mkChain t0 ht0
          refine ⟨h :: t0, ?_, 0, l, u, hch, by simp, ?_⟩
          · exact consAll_mem.mpr ⟨(h, tails), List.mem_cons_self _ _, t0, ht0, rfl⟩
          · rw [hl1, hq]
        · obtain ⟨p', hp', i, l, u, hch, hi, hl⟩ := hrepr1 q hq
          have hch3 := chainOK_mono hch hn2 he2 (Nat.le_refl _) hc2
          have hcons := chainOK_cons hch3 hpred_nh hsrc3_nh
            ⟨c, rfl, Nat.le_refl c, Nat.lt_of_lt_of_le (Nat.lt_succ_self c) (Nat.le_trans hc1 hc2)⟩
            (Nat.le_succ c) (Nat.le_refl _)
          refine ⟨h :: p', ?_, i + 1, r :: l, u, hcons, by simpa using hi, by simpa using hl⟩
          exact consAll_mem.mpr ⟨(h, tails), List.mem_cons_self _ _, p', hp', rfl⟩
      · obtain ⟨p', hp', i, l, u, hch, hi, hl⟩ := hrepr2 q hq
        refine ⟨p', ?_, i, l, u, chainOK_mono hch (by rw [List.append_nil])
          (by rw [List.append_nil]) (by omega) (Nat.le_refl _), hi, hl⟩
        rcases consAll_mem.mp hp' with ⟨g', hg', t', ht', rfl⟩
        exact consAll_mem.mpr ⟨g', List.mem_cons_of_mem _ hg', t', ht', rfl⟩
    · -- in-degree of every fresh node is 1
      intro k hk1 hk2
      rcases Nat.lt_or_ge k (c + 1) with hkc | hkc
      · have hkc' : k = c := by omega
        subst hkc'
        have hnil1 : predsIn Δe1 (Node.gen k) = [] := by
          refine predsIn_eq_nil ?_
          intro e he' hc'
          rcases (hNE1 e he').2 with hsnd | ⟨k', hk1', hk2', _⟩
          · rw [hc'] at hsnd
            exact Node.noConfusion hsnd
          · rw [hc'] at hk1'
            injection hk1' with hk1'
            omega
        have hnil2 : predsIn Δe2 (Node.gen k) = [] := by
          refine predsIn_eq_nil ?_
          intro e he' hc'
          rcases (hNE2 e he').2 with hsnd | ⟨k', hk1', hk2', _⟩
          · rw [hc'] at hsnd
            exact Node.noConfusion hsnd
          · rw [hc'] at hk1'
            injection hk1' with hk1'
            omega
        rw [DiGraph.inDeg, DiGraph.preds, he3, predsIn_append, predsIn_append, predsIn_append]
        rw [predsIn_eq_nil (fun e he' => fun hc' =>
          absurd ((hinv.edge_bound e he').2 k (by rw [hc'])) (by omega))]
        rw [hnil1, hnil2]
        simp [predsIn]
      · rcases Nat.lt_or_ge k (helper f tails (Node.gen c)
            ⟨B.nodes ++ [(Node.gen c, some (Src.elem h))], B.edges ++ [(r, Node.gen c)]⟩
            (c + 1)).2 with hkc2 | hkc2
        · have hd := hdeg1 k hkc hkc2
          have hnil2 : predsIn Δe2 (Node.gen k) = [] := by
            refine predsIn_eq_nil ?_
            intro e he' hc'
            rcases (hNE2 e he').2 with hsnd | ⟨k', hk1', hk2', _⟩
            · rw [hc'] at hsnd
              exact Node.noConfusion hsnd
            · rw [hc'] at hk1'
              injection hk1' with hk1'
              omega
          rw [DiGraph.inDeg, DiGraph.preds, he2, predsIn_append, List.length_append]
          rw [DiGraph.inDeg, DiGraph.preds] at hd
          rw [hd, hnil2]
          rfl
        · exact hdeg2 k hkc2 hk2
    · -- a walk for every represented path
      intro p hp
      rcases consAll_mem.mp hp with ⟨g', hg', t', ht', rfl⟩
      rcases List.mem_cons.mp hg' with hg' | hg'
      · have hg1 : g'.1 = h := by rw [hg']
        have hg2 : t' ∈ tails := by
          have : g'.2 = tails := by rw [hg']
          rw [← this]; exact ht'
        obtain ⟨l, u, hch, _⟩ := mkChain t' hg2
        rw [hg1]
        exact ⟨l, u, hch⟩
      · obtain ⟨l, u, hch⟩ := hchain2 (g'.1 :: t')
          (consAll_mem.mpr ⟨g', hg', t', ht', rfl⟩)
        exact ⟨l, u, chainOK_mono hch (by rw [List.append_nil]) (by rw [List.append_nil])
          (by omega) (Nat.le_refl _)⟩
theorem trie_master :
    ∀ (f : Nat) (paths : List (List α)) (r : Node) (B : DiGraph α) (c k₀ : Nat),
      maxLen paths < f → r = Node.gen k₀ → k₀ < c → B.hasNode r → TrieInv B c →
      (∀ y, (r, y) ∉ B.edges) →
      TriePost B c r paths paths.toFinset.card (helper f paths r B c).1
        (helper f paths r B c).2 := by
  intro f
  induction f with
  | zero => intro paths r B c k₀ hml; exact absurd hml (Nat.not_lt_zero _)
  | succ f IHf =>
    intro paths r B c k₀ hml hr hk hmem hinv hout
    have hml' : ∀ g ∈ groupPaths paths, maxLen g.2 < f := by
      intro g hg
      obtain ⟨hg1, hg2⟩ := groupPaths_mem.mp hg
      rw [hg2]
      refine maxLen_lt_of ?_ ?_
      · obtain ⟨t, ht⟩ := firstHeads_mem.mp hg1
        have := length_le_maxLen ht
        simp only [List.length_cons] at this
        omega
      · intro p hp
        exact Nat.lt_of_lt_of_le (maxLen_tailsFor hp) (by omega)
    have hne' : ∀ g ∈ groupPaths paths, g.2 ≠ [] := by
      intro g hg
      obtain ⟨hg1, hg2⟩ := groupPaths_mem.mp hg
      rw [hg2]
      exact tailsFor_ne_nil hg1
    have hnodup' : ((groupPaths paths).map Prod.fst).Nodup := by
      rw [groupPaths_heads]
      exact firstHeads_nodup paths
    have hBt := addTerminals_eq paths r B hmem hinv.nil_mem hout
    simp only [helper]
    by_cases hnilmem : ([] : List α) ∈ paths
    · -- there is at least one empty path: a terminal edge at the root
      rw [if_pos hnilmem] at hBt
      rw [hBt]
      have hinvt : TrieInv (⟨B.nodes, B.edges ++ [(r, Node.nil)]⟩ : DiGraph α) c := by
        refine ⟨hinv.nil_mem, hinv.nil_src, hinv.key_bound, ?_, hinv.keys_nodup, ?_, ?_, ?_,
          hinv.srcs⟩
        · intro e he
          rcases List.mem_append.mp he with he | he
          · exact hinv.edge_bound e he
          · simp only [List.mem_singleton] at he
            subst he
            refine ⟨?_, ?_⟩
            · intro k hk'
              rw [hr] at hk'
              injection hk' with hk'
              omega
            · intro k hk'
              exact Node.noConfusion hk'
        · exact nodup_append_singleton hinv.edges_nodup (hout Node.nil)
        · intro e he
          rcases List.mem_append.mp he with he | he
          · exact hinv.closed e he
          · simp only [List.mem_singleton] at he
            subst he
            exact ⟨hmem, hinv.nil_mem⟩
        · intro v w w' a hw hw' hsw hsw'
          have hnilsrc : (⟨B.nodes, B.edges ++ [(r, Node.nil)]⟩ : DiGraph α).srcOf Node.nil
              = some Src.nilMark := hinv.nil_src
          rcases List.mem_append.mp hw with hw | hw <;>
            rcases List.mem_append.mp hw' with hw' | hw'
          · exact hinv.pluc v w w' a hw hw' hsw hsw'
          · simp only [List.mem_singleton, Prod.mk.injEq] at hw'
            rw [hw'.2] at hsw'
            rw [hnilsrc] at hsw'
            injection hsw' with hsw'
            exact absurd hsw' (by simp)
          · simp only [List.mem_singleton, Prod.mk.injEq] at hw
            rw [hw.2] at hsw
            rw [hnilsrc] at hsw
            injection hsw with hsw
            exact absurd hsw (by simp)
          · simp only [List.mem_singleton, Prod.mk.injEq] at hw hw'
            rw [hw.2, hw'.2]
      have hlabelst : ∀ g ∈ groupPaths paths, ∀ w,
          (r, w) ∈ (⟨B.nodes, B.edges ++ [(r, Node.nil)]⟩ : DiGraph α).edges →
          (⟨B.nodes, B.edges ++ [(r, Node.nil)]⟩ : DiGraph α).srcOf w
            ≠ some (Src.elem g.1) := by
        intro g hg w hw hsw
        rcases List.mem_append.mp hw with hw | hw
        · exact hout w hw
        · simp only [List.mem_singleton, Prod.mk.injEq] at hw
          rw [hw.2] at hsw
          rw [show (⟨B.nodes, B.edges ++ [(r, Node.nil)]⟩ : DiGraph α).srcOf Node.nil
              = some Src.nilMark from hinv.nil_src] at hsw
          injection hsw with hsw
          exact absurd hsw (by simp)
      have G := trie_fold f IHf (groupPaths paths) r
        ⟨B.nodes, B.edges ++ [(r, Node.nil)]⟩ c k₀ hml' hne' hnodup' hlabelst hr hk hmem hinvt
      obtain ⟨hc2, hinv3, ⟨Δn, Δe, hn2, he2, hNN, hNE, hcount, hrepr⟩, hdeg, hchain⟩ := G
      refine ⟨hc2, hinv3, ⟨Δn, [(r, Node.nil)] ++ Δe, by simpa using hn2, by simpa using he2,
        hNN, ?_, ?_, ?_⟩, hdeg, ?_⟩
      · intro e he
        rcases List.mem_append.mp he with he | he
        · simp only [List.mem_singleton] at he
          subst he
          exact ⟨Or.inl rfl, Or.inl rfl⟩
        · exact hNE e he
      · rw [predsIn_append, List.length_append, hcount]
        rw [show predsIn [(r, Node.nil)] Node.nil = [r] from rfl]
        rw [toFinset_card_decomp paths, if_pos hnilmem]
        rfl
      · intro q hq
        obtain ⟨p, hp, i, l, u, hch, hi, hl⟩ := hrepr q hq
        exact ⟨p, consAll_mem_of_groupPaths hp, i, l, u, hch, hi, hl⟩
      · intro p hp
        cases p with
        | nil =>
          refine ⟨[r], r, rfl, rfl, rfl, ?_, fun i hi => absurd hi (Nat.not_lt_zero i)⟩
          rw [he2]
          exact List.mem_append_left _ (List.mem_append_right _ (List.mem_singleton.mpr rfl))
        | cons a t =>
          exact hchain (a :: t) (cons_mem_consAll_groupPaths hp)
    · -- no empty path: no terminal edge at the root
      rw [if_neg hnilmem] at hBt
      rw [hBt]
      have hlabelst : ∀ g ∈ groupPaths paths, ∀ w, (r, w) ∈ B.edges →
          B.srcOf w ≠ some (Src.elem g.1) :=
        fun g _ w hw _ => hout w hw
      have G := trie_fold f IHf (groupPaths paths) r B c k₀ hml' hne' hnodup' hlabelst hr hk
        hmem hinv
      obtain ⟨hc2, hinv3, ⟨Δn, Δe, hn2, he2, hNN, hNE, hcount, hrepr⟩, hdeg, hchain⟩ := G
      refine ⟨hc2, hinv3, ⟨Δn, Δe, hn2, he2, hNN, hNE, ?_, ?_⟩, hdeg, ?_⟩
      · rw [hcount, toFinset_card_decomp paths, if_neg hnilmem]
        omega
      · intro q hq
        obtain ⟨p, hp, i, l, u, hch, hi, hl⟩ := hrepr q hq
        exact ⟨p, consAll_mem_of_groupPaths hp, i, l, u, hch, hi, hl⟩
      · intro p hp
        cases p with
        | nil => exact absurd hp hnilmem
        | cons a t =>
          exact hchain (a :: t) (cons_mem_consAll_groupPaths hp)

theorem TrieInv_init : TrieInv (initTrie α) 1 := by
  refine ⟨?_, ?_, ?_, ?_, ?_, ?_, ?_, ?_, ?_⟩
  · simp [initTrie, DiGraph.hasNode, DiGraph.keys]
  · simp [initTrie, DiGraph.srcOf, lookupSrc]
  · intro k hk
    simp only [initTrie, DiGraph.keys, List.map_cons, List.map_nil, List.mem_cons,
      List.mem_singleton] at hk
    rcases hk with hk | hk | hk
    · injection hk with hk
      omega
    · exact Node.noConfusion hk
    · exact absurd hk (by simp at hk)
  · intro e he
    exact absurd he (List.not_mem_nil e)
  · simp [initTrie, DiGraph.keys]
  · exact List.nodup_nil
  · intro e he
    exact absurd he (List.not_mem_nil e)
  · intro v w w' a hw
    exact absurd hw (List.not_mem_nil _)
  · intro q hq
    simp only [initTrie, List.mem_cons, List.mem_singleton] at hq
    rcases hq with rfl | rfl | hq
    · simp
    · simp
    · exact absurd hq (by simp at hq)

theorem prefix_tree_post (paths : List (List α)) :
    TriePost (initTrie α) 1 (Node.gen 0) paths paths.toFinset.card
      (prefix_tree paths).1
      (helper (maxLen paths + 1) paths (Node.gen 0) (initTrie α) 1).2 := by
  have heq : (prefix_tree paths).1
      = (helper (maxLen paths + 1) paths (Node.gen 0) (initTrie α) 1).1 := rfl
  rw [heq]
  exact trie_master (maxLen paths + 1) paths (Node.gen 0) (initTrie α) 1 0
    (Nat.lt_succ_self _) rfl Nat.one_pos
    (by simp [initTrie, DiGraph.hasNode, DiGraph.keys])
    TrieInv_init
    (fun y hy => absurd hy (List.not_mem_nil _))

/-! ## From chains to the doctest recovery walk -/

theorem chain_upWalk (B : DiGraph α) (r : Node) :
    ∀ (n : Nat) (p : List α) (l : List Node) (u : Node),
      l.head? = some r → l.length = p.length + 1 → l.getLast? = some u →
      (∀ i, i < p.length →
        ∃ v w a, l[i]? = some v ∧ l[i + 1]? = some w ∧ p[i]? = some a ∧
          B.predOf w = some v ∧ B.srcOf w = some (Src.elem a) ∧ w ≠ r) →
      p.length = n →
      upWalk (n + 1) B r u = some p := by
  intro n
  induction n with
  | zero =>
    intro p l u hhead hlen hlast _ hn
    have hp : p = [] := List.length_eq_zero.mp hn
    subst hp
    have hl : l.length = 1 := by simpa using hlen
    obtain ⟨x, hx⟩ := List.length_eq_one.mp hl
    subst hx
    simp only [List.head?_cons, Option.some.injEq] at hhead
    simp only [List.getLast?_singleton, Option.some.injEq] at hlast
    rw [← hlast, hhead]
    simp [upWalk]
  | succ m ih =>
    intro p l u hhead hlen hlast hlinks hn
    rcases p.eq_nil_or_concat with rfl | ⟨p₀, a, hpe⟩
    · simp at hn
    rw [List.concat_eq_append] at hpe
    subst hpe
    rcases l.eq_nil_or_concat with rfl | ⟨l₀, w, hle⟩
    · simp at hlen
    rw [List.concat_eq_append] at hle
    have hwu : w = u := by
      rw [hle, List.getLast?_concat] at hlast
      injection hlast with hlast
    rw [hwu] at hle
    subst hle
    have hp₀len : p₀.length = m := by simpa using hn
    have hl₀len : l₀.length = m + 1 := by
      have := hlen
      simp only [List.length_append, List.length_cons, List.length_nil] at this
      omega
    -- the last link
    obtain ⟨v, w', a', hv, hw', ha', hpred, hsrc, hwr⟩ := hlinks m (by
      simp only [List.length_append, List.length_cons, List.length_nil]
      omega)
    have hw'u : w' = u := by
      rw [show m + 1 = l₀.length from hl₀len.symm] at hw'
      rw [List.getElem?_append_right (Nat.le_refl _)] at hw'
      simp only [Nat.sub_self, List.getElem?_cons_zero, Option.some.injEq] at hw'
      exact hw'.symm
    rw [hw'u] at hpred hsrc hwr
    have ha'a : a' = a := by
      rw [show (m : Nat) = p₀.length from hp₀len.symm] at ha'
      rw [List.getElem?_append_right (Nat.le_refl _)] at ha'
      simp at ha'
      exact ha'.symm
    subst ha'a
    have hvl₀ : l₀[m]? = some v := by
      rw [List.getElem?_append_left (by omega)] at hv
      exact hv
    -- unfold one step of the walk
    rw [show upWalk (m + 1 + 1) B r u
        = if u = r then some [] else
          match B.predOf u, B.srcOf u with
          | some w'', some (Src.elem b) => (upWalk (m + 1) B r w'').map (fun p' => p' ++ [b])
          | _, _ => none from rfl]
    rw [if_neg hwr, hpred, hsrc]
    have hrec := ih p₀ l₀ v
      (by cases l₀ with
        | nil => simp at hl₀len
        | cons x xs => simpa using hhead)
      (by omega)
      (by rw [List.getLast?_eq_getElem? l₀, hl₀len]; simpa using hvl₀)
      (by
        intro i hi
        obtain ⟨v', w'', a'', hv', hw'', ha'', hpred', hsrc', hwr'⟩ := hlinks i (by
          simp only [List.length_append, List.length_cons, List.length_nil]
          omega)
        refine ⟨v', w'', a'', ?_, ?_, ?_, hpred', hsrc', hwr'⟩
        · rw [List.getElem?_append_left (by omega)] at hv'
          exact hv'
        · rw [List.getElem?_append_left (by omega)] at hw''
          exact hw''
        · rw [List.getElem?_append_left (by omega)] at ha''
          exact ha'')
      hp₀len
    show (upWalk (m + 1) B r v).map (fun p' => p' ++ [a']) = some (p₀ ++ [a'])
    rw [hrec]
    rfl

/-! ## Longest common prefixes and walk agreement -/

theorem lcpLen_le_left (p q : List α) : lcpLen p q ≤ p.length := by
  induction p generalizing q with
  | nil => simp [lcpLen]
  | cons a p' ih =>
    cases q with
    | nil => simp [lcpLen]
    | cons b q' =>
      simp only [lcpLen, List.length_cons]
      by_cases hab : a = b
      · rw [if_pos hab]
        exact Nat.succ_le_succ (ih q')
      · rw [if_neg hab]
        omega

theorem lcpLen_le_right (p q : List α) : lcpLen p q ≤ q.length := by
  induction p generalizing q with
  | nil => simp [lcpLen]
  | cons a p' ih =>
    cases q with
    | nil => simp [lcpLen]
    | cons b q' =>
      simp only [lcpLen, List.length_cons]
      by_cases hab : a = b
      · rw [if_pos hab]
        exact Nat.succ_le_succ (ih q')
      · rw [if_neg hab]
        omega

theorem lcpLen_agree {p q : List α} : ∀ i, i < lcpLen p q → p[i]? = q[i]? := by
  induction p generalizing q with
  | nil => intro i hi; simp [lcpLen] at hi
  | cons a p' ih =>
    cases q with
    | nil => intro i hi; simp [lcpLen] at hi
    | cons b q' =>
      intro i hi
      simp only [lcpLen] at hi
      by_cases hab : a = b
      · rw [if_pos hab] at hi
        cases i with
        | zero => simp [hab]
        | succ j =>
          simp only [List.getElem?_cons_succ]
          exact ih j (by omega)
      · rw [if_neg hab] at hi
        omega

theorem lcpLen_diverge {p q : List α} (hp : lcpLen p q < p.length)
    (hq : lcpLen p q < q.length) : p[lcpLen p q]? ≠ q[lcpLen p q]? := by
  induction p generalizing q with
  | nil => simp at hp
  | cons a p' ih =>
    cases q with
    | nil => simp at hq
    | cons b q' =>
      by_cases hab : a = b
      · have hl : lcpLen (a :: p') (b :: q') = lcpLen p' q' + 1 := by
          simp [lcpLen, if_pos hab]
        rw [hl] at hp hq ⊢
        simp only [List.length_cons] at hp hq
        simp only [List.getElem?_cons_succ]
        exact @ih q' (by omega) (by omega)
      · have hl : lcpLen (a :: p') (b :: q') = 0 := by
          simp [lcpLen, if_neg hab]
        rw [hl]
        simp only [List.getElem?_cons_zero]
        exact fun hc => hab (Option.some.inj hc)

theorem lcpLen_full {p q : List α} (hp : lcpLen p q = p.length)
    (hq : lcpLen p q = q.length) : p = q := by
  induction p generalizing q with
  | nil =>
    cases q with
    | nil => rfl
    | cons b q' => simp [lcpLen] at hq
  | cons a p' ih =>
    cases q with
    | nil => simp [lcpLen] at hp
    | cons b q' =>
      by_cases hab : a = b
      · have hl : lcpLen (a :: p') (b :: q') = lcpLen p' q' + 1 := by
          simp [lcpLen, if_pos hab]
        rw [hl] at hp hq
        simp only [List.length_cons] at hp hq
        rw [hab, @ih q' (by omega) (by omega)]
      · have hl : lcpLen (a :: p') (b :: q') = 0 := by
          simp [lcpLen, if_neg hab]
        rw [hl] at hp
        simp only [List.length_cons] at hp
        omega

theorem chainOK_isPathWalk {B : DiGraph α} {r : Node} {c c' : Nat} {p : List α}
    {l : List Node} {u : Node} (h : ChainOK B r c c' p l u) : IsPathWalk B r p l := by
  obtain ⟨h1, h2, _, _, h5⟩ := h
  refine ⟨h1, h2, ?_⟩
  intro i hi
  obtain ⟨v, w, a, hv, hw, ha, hpred, hsrc, _⟩ := h5 i hi
  exact ⟨v, w, a, hv, hw, ha, predOf_mem hpred, hsrc⟩

theorem getElem?_zero_eq_head? (l : List Node) : l[0]? = l.head? := by
  cases l <;> simp

theorem walk_agree {B : DiGraph α} {r : Node} (hpluc : PLUC B) {p q : List α}
    {lp lq : List Node} (hp : IsPathWalk B r p lp) (hq : IsPathWalk B r q lq) :
    ∀ i, (∀ j, j < i → p[j]? = q[j]?) → i ≤ p.length → i ≤ q.length →
      ∀ j, j ≤ i → lp[j]? = lq[j]? := by
  obtain ⟨hp1, hp2, hp3⟩ := hp
  obtain ⟨hq1, hq2, hq3⟩ := hq
  intro i
  induction i with
  | zero =>
    intro _ _ _ j hj
    have hj0 : j = 0 := Nat.le_zero.mp hj
    subst hj0
    rw [getElem?_zero_eq_head?, getElem?_zero_eq_head?, hp1, hq1]
  | succ m ih =>
    intro hagree hple hqle j hj
    rcases Nat.lt_or_ge j (m + 1) with hjm | hjm
    · exact ih (fun j' hj' => hagree j' (by omega)) (by omega) (by omega) j (by omega)
    · have hjeq : j = m + 1 := by omega
      subst hjeq
      obtain ⟨v, w, a, hv, hw, ha, hmem, hsrc⟩ := hp3 m (by omega)
      obtain ⟨v', w', a', hv', hw', ha', hmem', hsrc'⟩ := hq3 m (by omega)
      have hvv : v = v' := by
        have := ih (fun j' hj' => hagree j' (by omega)) (by omega) (by omega) m (Nat.le_refl m)
        rw [hv, hv'] at this
        injection this
      have haa : a = a' := by
        have := hagree m (Nat.lt_succ_self m)
        rw [ha, ha'] at this
        injection this
      subst hvv haa
      have hww : w = w' := hpluc v w w' a hmem hmem' hsrc hsrc'
      rw [hw, hw', hww]

theorem walk_unique {B : DiGraph α} {r : Node} (hpluc : PLUC B) {p : List α}
    {lp lp' : List Node} (h1 : IsPathWalk B r p lp) (h2 : IsPathWalk B r p lp') :
    lp = lp' := by
  have hagree := walk_agree hpluc h1 h2 p.length (fun j _ => rfl)
    (Nat.le_refl _) (Nat.le_refl _)
  refine List.ext_getElem? ?_
  intro i
  rcases Nat.lt_or_ge i (p.length + 1) with hi | hi
  · exact hagree i (by omega)
  · rw [List.getElem?_eq_none (by rw [h1.2.1]; omega),
      List.getElem?_eq_none (by rw [h2.2.1]; omega)]
/-! ## Claim theorems for the prefix tree -/

/-- **C1** — Round-trip reconstruction: for every list of paths `P` and every path
`p ∈ P`, the graph built by `prefix_tree P` has a predecessor `u` of the `NIL` node
such that walking from `u` backward along the unique predecessor chain up to the root
and concatenating the `source` attributes of the visited nodes in reverse order
(`upWalk`) reconstructs `p` exactly. -/
theorem prefix_tree_roundtrip (paths : List (List α)) (p : List α) (hp : p ∈ paths) :
    ∃ u, u ∈ (prefix_tree paths).1.preds Node.nil ∧
      upWalk (p.length + 1) (prefix_tree paths).1 (prefix_tree paths).2 u = some p := by
  obtain ⟨_, _, _, _, hchain⟩ := prefix_tree_post paths
  obtain ⟨l, u, hch⟩ := hchain p hp
  obtain ⟨h1, h2, h3, h4, h5⟩ := hch
  refine ⟨u, mem_predsIn.mpr h4, ?_⟩
  refine chain_upWalk (prefix_tree paths).1 (prefix_tree paths).2 p.length p l u h1 h2 h3 ?_ rfl
  intro i hi
  obtain ⟨v, w, a, hv, hw, ha, hpred, hsrc, k, hkk, hk1, hk2⟩ := h5 i hi
  refine ⟨v, w, a, hv, hw, ha, hpred, hsrc, ?_⟩
  rw [hkk]
  show Node.gen k ≠ Node.gen 0
  intro hc
  injection hc with hc
  omega

theorem prefix_tree_roundtrip_witness :
    [0, 1] ∈ [[0, 1], [0, 2]] ∧
    ∃ u, u ∈ (prefix_tree [[0, 1], [0, 2]]).1.preds Node.nil ∧
      upWalk ([0, 1].length + 1) (prefix_tree [[0, 1], [0, 2]]).1
        (prefix_tree [[0, 1], [0, 2]]).2 u = some [0, 1] :=
  ⟨by decide, prefix_tree_roundtrip [[0, 1], [0, 2]] [0, 1] (by decide)⟩

/-- **C2** (counterexample) — the claim counts duplicate terminating paths as
multiple predecessors of `NIL`: on `P = [[0], [0]]` both paths terminate, so the
claim predicts 2 predecessors, but the graph records the duplicate edge only once
and `NIL` has exactly one predecessor. -/
theorem prefix_tree_degree_counterexample :
    ¬ (((prefix_tree [[0], [0]]).1.preds Node.nil).length = 2) := by decide

/-- **C2** (amended) — in the graph built by `prefix_tree P`: the root has
in-degree 0, `NIL` has out-degree 0, every node other than the root and `NIL` has
in-degree exactly 1, and the number of predecessors of `NIL` equals the number of
*distinct* paths of `P` (duplicates collapse onto a single edge). -/
theorem prefix_tree_degree_invariants (paths : List (List α)) :
    (prefix_tree paths).1.inDeg (prefix_tree paths).2 = 0 ∧
    (prefix_tree paths).1.outDeg Node.nil = 0 ∧
    (∀ v, (prefix_tree paths).1.hasNode v → v ≠ (prefix_tree paths).2 → v ≠ Node.nil →
      (prefix_tree paths).1.inDeg v = 1) ∧
    (prefix_tree paths).1.inDeg Node.nil = paths.toFinset.card := by
  obtain ⟨hc, hinv, ⟨Δn, Δe, hn, he, hNN, hNE, hcount, _⟩, hdeg, _⟩ := prefix_tree_post paths
  have hTe : (prefix_tree paths).1.edges = Δe := by
    rw [he]
    rfl
  refine ⟨?_, ?_, ?_, ?_⟩
  · show ((prefix_tree paths).1.preds (Node.gen 0)).length = 0
    rw [DiGraph.preds, hTe, predsIn_eq_nil]
    · rfl
    · intro e heΔ hc2
      rcases (hNE e heΔ).2 with hsnd | ⟨k, hk1, hk2, _, _⟩
      · rw [hc2] at hsnd
        exact Node.noConfusion hsnd
      · rw [hc2] at hk1
        injection hk1 with hk1
        omega
  · rw [DiGraph.outDeg, DiGraph.succs, hTe, succsIn_eq_nil]
    · rfl
    · intro e heΔ hc2
      rcases (hNE e heΔ).1 with hfst | ⟨j, hj1, _, _⟩
      · rw [hc2] at hfst
        exact Node.noConfusion hfst.symm
      · rw [hc2] at hj1
        exact Node.noConfusion hj1
  · intro v hv hvr hvn
    rw [DiGraph.hasNode, DiGraph.keys, hn, List.map_append, List.mem_append] at hv
    rcases hv with hv | hv
    · simp only [initTrie, List.map_cons, List.map_nil, List.mem_cons,
        List.mem_singleton] at hv
      rcases hv with hv | hv | hv
      · exact absurd hv hvr
      · exact absurd hv hvn
      · exact absurd hv (by simp at hv)
    · rcases List.mem_map.mp hv with ⟨q, hq, hq1⟩
      obtain ⟨k, a, hqe, hk1, hk2⟩ := hNN q hq
      rw [← hq1, hqe]
      exact hdeg k hk1 hk2
  · rw [DiGraph.inDeg, DiGraph.preds, hTe, hcount]

theorem prefix_tree_degree_invariants_witness :
    (prefix_tree [[0], [0]]).1.hasNode (Node.gen 1) ∧
    (prefix_tree [[0], [0]]).1.inDeg (Node.gen 1) = 1 :=
  ⟨by decide, (prefix_tree_degree_invariants [[0], [0]]).2.2.1 (Node.gen 1)
    (by decide) (by decide) (by decide)⟩

/-- **C3** (counterexample) — on `["ab", "abs", "ad"]` the root does *not* have two
children: all three paths start with `a`, so the root has exactly one child. -/
theorem prefix_tree_concrete_counterexample :
    ¬ ((prefix_tree [['a', 'b'], ['a', 'b', 's'], ['a', 'd']]).1.outDeg
        (prefix_tree [['a', 'b'], ['a', 'b', 's'], ['a', 'd']]).2 = 2) := by decide

/-- **C3** (amended) — `prefix_tree ["ab", "abs", "ad"]` produces a root with exactly
one child (the shared `a` branch); that child has two children (`b` and `d`); the
`b` child has a direct edge to `NIL` and a further child `s` that also reaches `NIL`;
the `d` child reaches `NIL`; so `NIL` has exactly three distinct predecessors. -/
theorem prefix_tree_concrete_scenario :
    (prefix_tree [['a', 'b'], ['a', 'b', 's'], ['a', 'd']]).1.succs
        (prefix_tree [['a', 'b'], ['a', 'b', 's'], ['a', 'd']]).2 = [Node.gen 1] ∧
    (prefix_tree [['a', 'b'], ['a', 'b', 's'], ['a', 'd']]).1.srcOf (Node.gen 1)
        = some (Src.elem 'a') ∧
    (prefix_tree [['a', 'b'], ['a', 'b', 's'], ['a', 'd']]).1.succs (Node.gen 1)
        = [Node.gen 2, Node.gen 4] ∧
    (prefix_tree [['a', 'b'], ['a', 'b', 's'], ['a', 'd']]).1.srcOf (Node.gen 2)
        = some (Src.elem 'b') ∧
    (prefix_tree [['a', 'b'], ['a', 'b', 's'], ['a', 'd']]).1.srcOf (Node.gen 4)
        = some (Src.elem 'd') ∧
    (Node.gen 2, Node.nil) ∈ (prefix_tree [['a', 'b'], ['a', 'b', 's'], ['a', 'd']]).1.edges ∧
    (prefix_tree [['a', 'b'], ['a', 'b', 's'], ['a', 'd']]).1.succs (Node.gen 2)
        = [Node.nil, Node.gen 3] ∧
    (prefix_tree [['a', 'b'], ['a', 'b', 's'], ['a', 'd']]).1.srcOf (Node.gen 3)
        = some (Src.elem 's') ∧
    (Node.gen 3, Node.nil) ∈ (prefix_tree [['a', 'b'], ['a', 'b', 's'], ['a', 'd']]).1.edges ∧
    (Node.gen 4, Node.nil) ∈ (prefix_tree [['a', 'b'], ['a', 'b', 's'], ['a', 'd']]).1.edges ∧
    (prefix_tree [['a', 'b'], ['a', 'b', 's'], ['a', 'd']]).1.preds Node.nil
        = [Node.gen 2, Node.gen 3, Node.gen 4] := by
  refine ⟨rfl, rfl, rfl, rfl, rfl, by decide, rfl, rfl, by decide, by decide, rfl⟩

/-- **C4** — shared-prefix property: two distinct paths of `P` have node walks from
the root that agree on the first `k + 1` nodes (hence share exactly the first `k`
edges), where `k` is the length of their longest common prefix, and diverge
immediately afterwards: the walks (extended by the terminal `NIL` node) differ at
index `k + 1`.  The walks are unique. -/
theorem prefix_tree_shared_prefix (paths : List (List α)) (p q : List α)
    (hp : p ∈ paths) (hq : q ∈ paths) (hne : p ≠ q) :
    ∃ lp lq, IsPathWalk (prefix_tree paths).1 (prefix_tree paths).2 p lp ∧
      IsPathWalk (prefix_tree paths).1 (prefix_tree paths).2 q lq ∧
      (∀ l', IsPathWalk (prefix_tree paths).1 (prefix_tree paths).2 p l' → l' = lp) ∧
      (∀ l', IsPathWalk (prefix_tree paths).1 (prefix_tree paths).2 q l' → l' = lq) ∧
      (lp ++ [Node.nil]).take (lcpLen p q + 1) = (lq ++ [Node.nil]).take (lcpLen p q + 1) ∧
      (lp ++ [Node.nil])[lcpLen p q + 1]? ≠ (lq ++ [Node.nil])[lcpLen p q + 1]? := by
  obtain ⟨hc, hinv, _, _, hchain⟩ := prefix_tree_post paths
  obtain ⟨lp, up, hchp⟩ := hchain p hp
  obtain ⟨lq, uq, hchq⟩ := hchain q hq
  have hwp := chainOK_isPathWalk hchp
  have hwq := chainOK_isPathWalk hchq
  have hpluc := hinv.pluc
  have hkp := lcpLen_le_left p q
  have hkq := lcpLen_le_right p q
  have hlplen : lp.length = p.length + 1 := hwp.2.1
  have hlqlen : lq.length = q.length + 1 := hwq.2.1
  have hagree : ∀ j, j ≤ lcpLen p q → lp[j]? = lq[j]? :=
    walk_agree hpluc hwp hwq (lcpLen p q) (fun j hj => lcpLen_agree j hj) hkp hkq
  refine ⟨lp, lq, hwp, hwq, fun l' h' => walk_unique hpluc h' hwp,
    fun l' h' => walk_unique hpluc h' hwq, ?_, ?_⟩
  · refine List.ext_getElem? ?_
    intro i
    by_cases hik : i < lcpLen p q + 1
    · rw [List.getElem?_take_of_lt hik, List.getElem?_take_of_lt hik]
      rw [List.getElem?_append_left (by omega), List.getElem?_append_left (by omega)]
      exact hagree i (by omega)
    · rw [List.getElem?_eq_none, List.getElem?_eq_none]
      · exact Nat.le_trans (List.length_take_le _ _) (by omega)
      · exact Nat.le_trans (List.length_take_le _ _) (by omega)
  · rcases Nat.lt_or_ge (lcpLen p q) p.length with hkpl | hkpl <;>
      rcases Nat.lt_or_ge (lcpLen p q) q.length with hkql | hkql
    · -- both paths continue: children with different labels
      obtain ⟨v, w, a, hv, hw, ha, hmem, hsrc⟩ := hwp.2.2 (lcpLen p q) hkpl
      obtain ⟨v', w', a', hv', hw', ha', hmem', hsrc'⟩ := hwq.2.2 (lcpLen p q) hkql
      have hvv : v = v' := by
        have := hagree (lcpLen p q) (Nat.le_refl _)
        rw [hv, hv'] at this
        injection this
      subst hvv
      have haa : a ≠ a' := by
        intro hceq
        subst hceq
        exact lcpLen_diverge hkpl hkql (by rw [ha, ha'])
      have hww : w ≠ w' := by
        intro hceq
        subst hceq
        rw [hsrc] at hsrc'
        injection hsrc' with hsrc'
        injection hsrc' with hsrc'
        exact haa hsrc'
      rw [List.getElem?_append_left (by omega), List.getElem?_append_left (by omega)]
      rw [hw, hw']
      intro hceq
      injection hceq with hceq
      exact hww hceq
    · -- p continues, q ends: a generated node versus NIL
      obtain ⟨v, w, a, hv, hw, ha, hpred, hsrc, k, hkk, _, _⟩ :=
        hchp.2.2.2.2 (lcpLen p q) hkpl
      have hkq_eq : lcpLen p q = q.length := by omega
      rw [List.getElem?_append_left (show lcpLen p q + 1 < lp.length by omega), hw]
      rw [List.getElem?_append_right (show lq.length ≤ lcpLen p q + 1 by omega)]
      rw [show lcpLen p q + 1 - lq.length = 0 by omega]
      simp only [List.getElem?_cons_zero]
      intro hceq
      injection hceq with hceq
      rw [hkk] at hceq
      exact Node.noConfusion hceq
    · -- q continues, p ends
      obtain ⟨v, w, a, hv, hw, ha, hpred, hsrc, k, hkk, _, _⟩ :=
        hchq.2.2.2.2 (lcpLen p q) hkql
      rw [List.getElem?_append_right (show lp.length ≤ lcpLen p q + 1 by omega)]
      rw [show lcpLen p q + 1 - lp.length = 0 by omega]
      simp only [List.getElem?_cons_zero]
      rw [List.getElem?_append_left (show lcpLen p q + 1 < lq.length by omega), hw]
      intro hceq
      injection hceq with hceq
      rw [hkk] at hceq
      exact Node.noConfusion hceq
    · exact absurd (lcpLen_full (by omega) (by omega)) hne

theorem prefix_tree_shared_prefix_witness :
    [0, 1] ∈ [[0, 1], [0, 2]] ∧ [0, 2] ∈ [[0, 1], [0, 2]] ∧ [0, 1] ≠ [0, 2] ∧
    (∃ lp lq, IsPathWalk (prefix_tree [[0, 1], [0, 2]]).1 (prefix_tree [[0, 1], [0, 2]]).2
        [0, 1] lp ∧
      IsPathWalk (prefix_tree [[0, 1], [0, 2]]).1 (prefix_tree [[0, 1], [0, 2]]).2 [0, 2] lq ∧
      (∀ l', IsPathWalk (prefix_tree [[0, 1], [0, 2]]).1 (prefix_tree [[0, 1], [0, 2]]).2
          [0, 1] l' → l' = lp) ∧
      (∀ l', IsPathWalk (prefix_tree [[0, 1], [0, 2]]).1 (prefix_tree [[0, 1], [0, 2]]).2
          [0, 2] l' → l' = lq) ∧
      (lp ++ [Node.nil]).take (lcpLen [0, 1] [0, 2] + 1)
        = (lq ++ [Node.nil]).take (lcpLen [0, 1] [0, 2] + 1) ∧
      (lp ++ [Node.nil])[lcpLen [0, 1] [0, 2] + 1]?
        ≠ (lq ++ [Node.nil])[lcpLen [0, 1] [0, 2] + 1]?) :=
  ⟨by decide, by decide, by decide,
    prefix_tree_shared_prefix [[0, 1], [0, 2]] [0, 1] [0, 2] (by decide) (by decide) (by decide)⟩
/-- **C8** — sentinel attributes: every node of the graph built by `prefix_tree P`
carries a `source` attribute; the root's is the null marker, `NIL`'s is the
NIL-marker, and every other node's `source` is the original path element the node
represents (the element at its depth on the walk of some path of `P`). -/
theorem prefix_tree_source_attributes (paths : List (List α)) :
    (∀ v, (prefix_tree paths).1.hasNode v → ∃ s, (prefix_tree paths).1.srcOf v = some s) ∧
    (prefix_tree paths).1.srcOf (prefix_tree paths).2 = some Src.null ∧
    (prefix_tree paths).1.srcOf Node.nil = some Src.nilMark ∧
    (∀ v, (prefix_tree paths).1.hasNode v → v ≠ (prefix_tree paths).2 → v ≠ Node.nil →
      ∃ a p l i, p ∈ paths ∧
        IsPathWalk (prefix_tree paths).1 (prefix_tree paths).2 p l ∧
        i < p.length ∧ p[i]? = some a ∧ l[i + 1]? = some v ∧
        (prefix_tree paths).1.srcOf v = some (Src.elem a)) := by
  obtain ⟨hc, hinv, ⟨Δn, Δe, hn, he, hNN, hNE, hcount, hrepr⟩, hdeg, _⟩ := prefix_tree_post paths
  refine ⟨?_, ?_, hinv.nil_src, ?_⟩
  · intro v hv
    have hv' : v ∈ (prefix_tree paths).1.nodes.map Prod.fst := hv
    have hmem := lookupSrc_mem hv'
    have := hinv.srcs _ hmem
    rcases hs : (prefix_tree paths).1.srcOf v with _ | s
    · rw [DiGraph.srcOf] at hs
      rw [hs] at this
      exact absurd rfl this
    · exact ⟨s, rfl⟩
  · show (prefix_tree paths).1.srcOf (Node.gen 0) = some Src.null
    rw [DiGraph.srcOf, hn]
    rw [lookupSrc_append_left (by simp [initTrie])]
    rfl
  · intro v hv hvr hvn
    rw [DiGraph.hasNode, DiGraph.keys, hn, List.map_append, List.mem_append] at hv
    rcases hv with hv | hv
    · simp only [initTrie, List.map_cons, List.map_nil, List.mem_cons,
        List.mem_singleton] at hv
      rcases hv with hv | hv | hv
      · exact absurd hv hvr
      · exact absurd hv hvn
      · exact absurd hv (by simp at hv)
    · rcases List.mem_map.mp hv with ⟨q, hq, hq1⟩
      obtain ⟨p, hp, i, l, u, hch, hi, hl⟩ := hrepr q hq
      obtain ⟨ch1, ch2, ch3, ch4, ch5⟩ := hch
      obtain ⟨v', w, a, hv', hw, ha, hpred, hsrc, _⟩ := ch5 i hi
      have hwv : w = v := by
        rw [hl, hq1] at hw
        injection hw with hw
        exact hw.symm
      subst hwv
      exact ⟨a, p, l, i, hp, chainOK_isPathWalk ⟨ch1, ch2, ch3, ch4, ch5⟩, hi, ha,
        by rw [hl, hq1], hsrc⟩

theorem prefix_tree_source_attributes_witness :
    (prefix_tree [[5]]).1.hasNode (Node.gen 1) ∧
    (∃ a p l i, p ∈ [[5]] ∧
      IsPathWalk (prefix_tree [[5]]).1 (prefix_tree [[5]]).2 p l ∧
      i < p.length ∧ p[i]? = some a ∧ l[i + 1]? = some (Node.gen 1) ∧
      (prefix_tree [[5]]).1.srcOf (Node.gen 1) = some (Src.elem a)) :=
  ⟨by decide, (prefix_tree_source_attributes [[5]]).2.2.2 (Node.gen 1)
    (by decide) (by decide) (by decide)⟩

/-- **C9** — empty input: `prefix_tree []` returns a graph containing exactly the
root node and the `NIL` node, with no edges, so `NIL` is unreachable from the
root. -/
theorem prefix_tree_empty_input (β : Type) [DecidableEq β] :
    (prefix_tree ([] : List (List β))).1.nodes
      = [(Node.gen 0, some Src.null), (Node.nil, some Src.nilMark)] ∧
    (prefix_tree ([] : List (List β))).1.edges = [] ∧
    ¬ (prefix_tree ([] : List (List β))).1.Reaches
        (prefix_tree ([] : List (List β))).2 Node.nil := by
  refine ⟨rfl, rfl, ?_⟩
  intro h
  rcases Relation.ReflTransGen.cases_head h with heq | ⟨c', hc', _⟩
  · exact Node.noConfusion heq
  · exact absurd hc' (List.not_mem_nil _)

/-- **C10** — duplicate collapse: the graph built by `prefix_tree P` is a simple
directed graph (its edge list has no parallel edges and no self-loops), and the
in-degree of `NIL` equals the number of distinct paths of `P` — duplicate
terminating paths are recorded once. -/
theorem prefix_tree_simple_graph (paths : List (List α)) :
    (prefix_tree paths).1.edges.Nodup ∧
    (∀ e ∈ (prefix_tree paths).1.edges, e.1 ≠ e.2) ∧
    (prefix_tree paths).1.inDeg Node.nil = paths.toFinset.card := by
  obtain ⟨hc, hinv, ⟨Δn, Δe, hn, he, hNN, hNE, hcount, _⟩, hdeg, _⟩ := prefix_tree_post paths
  have hTe : (prefix_tree paths).1.edges = Δe := by
    rw [he]
    rfl
  refine ⟨hinv.edges_nodup, ?_, ?_⟩
  · intro e hee
    rw [hTe] at hee
    obtain ⟨hfst, hsnd⟩ := hNE e hee
    rcases hsnd with hsnd | ⟨k, hk1, hk2, hk3, hpar⟩
    · rcases hfst with hfst | ⟨j, hj1, _, _⟩
      · rw [hfst, hsnd]
        intro hceq
        exact Node.noConfusion hceq
      · rw [hj1, hsnd]
        intro hceq
        exact Node.noConfusion hceq
    · rcases hpar with hpar | ⟨j, hj1, hj2, hj3⟩
      · rw [hpar, hk1]
        intro hceq
        injection hceq with hceq
        omega
      · rw [hj1, hk1]
        intro hceq
        injection hceq with hceq
        omega
  · rw [DiGraph.inDeg, DiGraph.preds, hTe, hcount]

theorem prefix_tree_simple_graph_witness :
    ¬ ((Node.gen 1, Node.gen 1) ∈ (prefix_tree [[0], [0]]).1.edges) := by
  intro hmem
  exact ((prefix_tree_simple_graph [[0], [0]]).2.1 (Node.gen 1, Node.gen 1) hmem) rfl
/-! ## Claim theorems for the random-tree generator -/

/-- **C7** — degenerate sizes: `random_tree 0 seed` fails with a PointlessConcept
error (no graph is produced), and `random_tree 1 seed` succeeds with a single-node
graph with zero edges. -/
theorem random_tree_degenerate (seed : Int) :
    random_tree 0 seed = .error (.pointlessConcept "the null graph is not a tree") ∧
    random_tree 1 seed = .ok (empty_graph 1) ∧
    (empty_graph 1).nodes = [0] ∧ (empty_graph 1).edges = [] :=
  ⟨rfl, rfl, rfl, rfl⟩

/-- **C6** — determinism under seeding: for `n ≥ 2` the result of
`random_tree n seed` is a deterministic function of `n` and the seed (two calls with
equal seeds return identical graphs, hence identical edge sets); the call decodes the
Prüfer sequence `prufer_sample n seed`, which consists of exactly `n - 2` draws, the
`i`-th being the `i`-th raw draw of the seeded stream reduced uniformly into
`[0, n-1]`. -/
theorem random_tree_seed_deterministic (n : Nat) (seed : Int) (h : 2 ≤ n) :
    (∀ seed', seed' = seed → random_tree n seed' = random_tree n seed) ∧
    random_tree n seed = from_prufer_sequence (prufer_sample n seed) ∧
    (prufer_sample n seed).length = n - 2 ∧
    (∀ i, i < n - 2 → (prufer_sample n seed)[i]? = some (choiceRange seed i n)) ∧
    (∀ x ∈ prufer_sample n seed, x < n) := by
  refine ⟨?_, ?_, ?_, ?_, ?_⟩
  · intro seed' hs
    rw [hs]
  · rw [random_tree, if_neg (by omega), if_neg (by omega)]
  · simp [prufer_sample]
  · intro i hi
    simp only [prufer_sample, List.getElem?_map, List.getElem?_range hi, Option.map_some']
  · intro x hx
    simp only [prufer_sample, List.mem_map, List.mem_range] at hx
    obtain ⟨i, _, rfl⟩ := hx
    exact Nat.mod_lt _ (by omega)

theorem random_tree_seed_deterministic_witness :
    (prufer_sample 3 0).length = 3 - 2 :=
  (random_tree_seed_deterministic 3 0 (by decide)).2.2.1
/-! ## The Prüfer decoding loop: degree bookkeeping -/

theorem decAt_length (deg : List Nat) (i : Nat) : (decAt deg i).length = deg.length := by
  simp [decAt]

theorem getD_eq_get {l : List Nat} {i : Nat} (h : i < l.length) :
    l.getD i 0 = l.get ⟨i, h⟩ := by
  rw [List.getD_eq_getElem?_getD, List.getElem?_eq_getElem h]
  rfl

theorem decAt_getD_self {deg : List Nat} {i : Nat} (h : i < deg.length) :
    (decAt deg i).getD i 0 = deg.getD i 0 - 1 := by
  rw [List.getD_eq_getElem?_getD, decAt, List.getElem?_set_self', List.getD_eq_getElem?_getD]
  rw [List.getElem?_eq_getElem h]
  simp

theorem decAt_getD_ne {deg : List Nat} {i j : Nat} (h : i ≠ j) :
    (decAt deg i).getD j 0 = deg.getD j 0 := by
  rw [List.getD_eq_getElem?_getD, decAt, List.getElem?_set_ne h, List.getD_eq_getElem?_getD]

theorem findDeg1_spec : ∀ (l : List Nat) (off v : Nat), findDeg1 l off = some v →
    ∃ j, j < l.length ∧ v = off + j ∧ l[j]? = some 1 := by
  intro l
  induction l with
  | nil => intro off v h; exact absurd h (by simp [findDeg1])
  | cons d ds ih =>
    intro off v h
    simp only [findDeg1] at h
    by_cases hd : d = 1
    · rw [if_pos hd] at h
      injection h with h
      exact ⟨0, by simp, by omega, by simp [hd]⟩
    · rw [if_neg hd] at h
      obtain ⟨j, hj, hv, hget⟩ := ih (off + 1) v h
      exact ⟨j + 1, by simpa using hj, by omega, by simpa using hget⟩

theorem findDeg1_none : ∀ (l : List Nat) (off : Nat), findDeg1 l off = none →
    ∀ d ∈ l, d ≠ 1 := by
  intro l
  induction l with
  | nil => intro off _ d hd; exact absurd hd (List.not_mem_nil d)
  | cons x ds ih =>
    intro off h d hd
    simp only [findDeg1] at h
    by_cases hx : x = 1
    · rw [if_pos hx] at h
      exact Option.noConfusion h
    · rw [if_neg hx] at h
      rcases List.mem_cons.mp hd with rfl | hd
      · exact hx
      · exact ih (off + 1) h d hd

theorem filter_length_step {n v : Nat} {P P' : Nat → Bool} (hv : v < n)
    (hPv : P v = true) (hP'v : P' v = false)
    (hother : ∀ x, x < n → x ≠ v → P' x = P x) :
    ((List.range n).filter P').length + 1 = ((List.range n).filter P).length := by
  have h1 : (List.range n).filter P' = ((List.range n).filter P).filter (fun x => x != v) := by
    rw [List.filter_filter]
    refine List.filter_congr ?_
    intro x hx
    rw [List.mem_range] at hx
    by_cases hxv : x = v
    · subst hxv
      rw [hP'v]
      simp
    · rw [hother x hx hxv]
      rcases hP : P x with _ | _
      · simp
      · simp [hxv]
  have hnd : ((List.range n).filter P).Nodup := (List.nodup_range n).filter P
  have hvmem : v ∈ (List.range n).filter P := by
    rw [List.mem_filter, List.mem_range]
    exact ⟨hv, hPv⟩
  rw [h1, ← List.Nodup.erase_eq_filter hnd, List.length_erase_of_mem hvmem]
  have := List.length_pos.mpr (List.ne_nil_of_mem hvmem)
  omega
theorem exists_leaf {n : Nat} {s deg : List Nat}
    (hs : ∀ u ∈ s, u < n)
    (hdeg : ∀ v, v < n → deg.getD v 0 = s.count v + 1 ∨ (deg.getD v 0 = 0 ∧ s.count v = 0))
    (hact : ((List.range n).filter (fun v => decide (deg.getD v 0 ≠ 0))).length = s.length + 2) :
    ∃ x, x < n ∧ deg.getD x 0 = 1 ∧ x ∉ s := by
  have hAnd : ((List.range n).filter (fun v => decide (deg.getD v 0 ≠ 0))).Nodup :=
    (List.nodup_range n).filter _
  have hsub : s.toFinset ⊆
      ((List.range n).filter (fun v => decide (deg.getD v 0 ≠ 0))).toFinset := by
    intro x hx
    rw [List.mem_toFinset] at hx ⊢
    have hxn := hs x hx
    have hcnt : 1 ≤ s.count x := List.one_le_count_iff.mpr hx
    have hne : deg.getD x 0 ≠ 0 := by
      rcases hdeg x hxn with h | ⟨h0, hc⟩
      · omega
      · omega
    rw [List.mem_filter, List.mem_range]
    exact ⟨hxn, by simpa using hne⟩
  have hcard : ((List.range n).filter (fun v => decide (deg.getD v 0 ≠ 0))).toFinset.card
      = s.length + 2 := by
    rw [List.toFinset_card_of_nodup hAnd, hact]
  have hlt : s.toFinset.card <
      ((List.range n).filter (fun v => decide (deg.getD v 0 ≠ 0))).toFinset.card := by
    have := s.toFinset_card_le
    omega
  have hnsub : ¬ (((List.range n).filter (fun v => decide (deg.getD v 0 ≠ 0))).toFinset
      ⊆ s.toFinset) := fun h => absurd (Finset.card_le_card h) (by omega)
  obtain ⟨x, hxA, hxs⟩ := Finset.not_subset.mp hnsub
  rw [List.mem_toFinset, List.mem_filter, List.mem_range] at hxA
  rw [List.mem_toFinset] at hxs
  have hxne : deg.getD x 0 ≠ 0 := by simpa using hxA.2
  have hcnt0 : s.count x = 0 := List.count_eq_zero_of_not_mem hxs
  rcases hdeg x hxA.1 with h | ⟨h0, _⟩
  · exact ⟨x, hxA.1, by omega, hxs⟩
  · exact absurd h0 hxne

theorem decodeLoop_spec :
    ∀ (s : List Nat) (deg : List Nat) (acc : List (Nat × Nat)) (n : Nat),
      deg.length = n →
      (∀ u ∈ s, u < n) →
      (∀ v, v < n → deg.getD v 0 = s.count v + 1 ∨ (deg.getD v 0 = 0 ∧ s.count v = 0)) →
      ((List.range n).filter (fun v => decide (deg.getD v 0 ≠ 0))).length = s.length + 2 →
      ∃ deg' Δ, decodeLoop s deg acc = some (deg', acc ++ Δ) ∧
        deg'.length = n ∧
        Δ.length = s.length ∧
        (∀ v, v < n → deg'.getD v 0 = 1 ∨ deg'.getD v 0 = 0) ∧
        ((List.range n).filter (fun v => decide (deg'.getD v 0 ≠ 0))).length = 2 ∧
        (∀ v, deg.getD v 0 = 0 → deg'.getD v 0 = 0) ∧
        (∀ e ∈ Δ, e.1 < n ∧ e.2 < n ∧ deg.getD e.1 0 ≠ 0 ∧ deg.getD e.2 0 ≠ 0) ∧
        (Δ.map Prod.snd).Nodup ∧
        (∀ v ∈ Δ.map Prod.snd, deg'.getD v 0 = 0) ∧
        (∀ k, ∀ hk : k < Δ.length, (Δ.get ⟨k, hk⟩).1 ∉ (Δ.take (k + 1)).map Prod.snd) := by
  intro s
  induction s with
  | nil =>
    intro deg acc n hlen hs hdeg hact
    refine ⟨deg, [], ?_, hlen, rfl, ?_, ?_, fun v h => h, ?_, List.nodup_nil, ?_, ?_⟩
    · rw [List.append_nil]; rfl
    · intro v hv
      rcases hdeg v hv with h | ⟨h0, _⟩
      · left; simpa using h
      · right; exact h0
    · simpa using hact
    · intro e he; exact absurd he (List.not_mem_nil e)
    · intro v hv; exact absurd hv (List.not_mem_nil v)
    · intro k hk; exact absurd hk (by simp)
  | cons u rest ih =>
    intro deg acc n hlen hs hdeg hact
    obtain ⟨x, hxn, hx1, hxs⟩ := exists_leaf hs hdeg hact
    -- the smallest leaf exists
    have hfound : ∃ v₀, findDeg1 deg 0 = some v₀ := by
      cases hf : findDeg1 deg 0 with
      | none =>
        exfalso
        have hxl : x < deg.length := by omega
        have := findDeg1_none deg 0 hf (deg.get ⟨x, hxl⟩) (List.get_mem deg x hxl)
        rw [← getD_eq_get hxl] at this
        exact this hx1
      | some v₀ => exact ⟨v₀, rfl⟩
    obtain ⟨v₀, hfind⟩ := hfound
    obtain ⟨j, hj, hveq, hget⟩ := findDeg1_spec deg 0 v₀ hfind
    have hv₀n : v₀ < n := by omega
    have hdegv₀ : deg.getD v₀ 0 = 1 := by
      rw [List.getD_eq_getElem?_getD]
      rw [show v₀ = j by omega, hget]
      rfl
    have hu : u < n := hs u (List.mem_cons_self u rest)
    have hcu : 1 ≤ (u :: rest).count u := by
      rw [List.count_cons_self]; omega
    have hdegu : deg.getD u 0 = (u :: rest).count u + 1 := by
      rcases hdeg u hu with h | ⟨h0, hc⟩
      · exact h
      · omega
    have hdegu2 : 2 ≤ deg.getD u 0 := by omega
    have huv : u ≠ v₀ := fun h => by rw [h, hdegv₀] at hdegu2; omega
    -- the new degree list
    have hlen1 : (decAt (decAt deg u) v₀).length = n := by
      rw [decAt_length, decAt_length, hlen]
    have hD1u : (decAt (decAt deg u) v₀).getD u 0 = deg.getD u 0 - 1 := by
      rw [decAt_getD_ne (Ne.symm huv), decAt_getD_self (by omega)]
    have hD1v : (decAt (decAt deg u) v₀).getD v₀ 0 = 0 := by
      rw [decAt_getD_self (by rw [decAt_length]; omega), decAt_getD_ne huv, hdegv₀]
    have hD1other : ∀ w, w ≠ u → w ≠ v₀ → (decAt (decAt deg u) v₀).getD w 0 = deg.getD w 0 := by
      intro w hwu hwv
      rw [decAt_getD_ne (Ne.symm hwv), decAt_getD_ne (Ne.symm hwu)]
    have hzero1 : ∀ w, deg.getD w 0 = 0 → (decAt (decAt deg u) v₀).getD w 0 = 0 := by
      intro w hw
      have hwu : w ≠ u := fun h => by rw [h] at hw; omega
      have hwv : w ≠ v₀ := fun h => by rw [h, hdegv₀] at hw; omega
      rw [hD1other w hwu hwv]; exact hw
    have hnz1 : ∀ w, (decAt (decAt deg u) v₀).getD w 0 ≠ 0 → deg.getD w 0 ≠ 0 :=
      fun w h hc => h (hzero1 w hc)
    -- the invariants for the tail
    have hs' : ∀ u' ∈ rest, u' < n := fun u' h => hs u' (List.mem_cons_of_mem u h)
    have hdeg' : ∀ v, v < n → (decAt (decAt deg u) v₀).getD v 0 = rest.count v + 1 ∨
        ((decAt (decAt deg u) v₀).getD v 0 = 0 ∧ rest.count v = 0) := by
      intro v hv
      by_cases hvu : v = u
      · subst hvu
        left
        rw [hD1u, hdegu, List.count_cons_self]
        omega
      · by_cases hvv : v = v₀
        · subst hvv
          right
          refine ⟨hD1v, ?_⟩
          rcases hdeg v hv with h | ⟨_, hc⟩
          · rw [hdegv₀] at h
            have : (u :: rest).count v = 0 := by omega
            rw [List.count_cons_of_ne hvu] at this
            exact this
          · rw [List.count_cons_of_ne hvu] at hc
            exact hc
        · rw [hD1other v hvu hvv]
          rcases hdeg v hv with h | ⟨h0, hc⟩
          · left; rw [h, List.count_cons_of_ne hvu]
          · right; rw [List.count_cons_of_ne hvu] at hc; exact ⟨h0, hc⟩
    have hact' : ((List.range n).filter
        (fun v => decide ((decAt (decAt deg u) v₀).getD v 0 ≠ 0))).length
        = rest.length + 2 := by
      have hstep := filter_length_step hv₀n
        (show decide (deg.getD v₀ 0 ≠ 0) = true by rw [hdegv₀]; decide)
        (show decide ((decAt (decAt deg u) v₀).getD v₀ 0 ≠ 0) = false by rw [hD1v]; decide)
        (by
          intro x hxn' hxv
          show decide ((decAt (decAt deg u) v₀).getD x 0 ≠ 0) = decide (deg.getD x 0 ≠ 0)
          by_cases hxu : x = u
          · have h1 : (decAt (decAt deg u) v₀).getD x 0 = deg.getD x 0 - 1 := by
              rw [hxu]; exact hD1u
            have h2 : 2 ≤ deg.getD x 0 := by rw [hxu]; exact hdegu2
            rw [h1]
            exact decide_eq_decide.mpr (by omega)
          · rw [hD1other x hxu hxv])
      rw [List.length_cons] at hact
      omega
    obtain ⟨deg', Δ', hrun, hlen', hΔlen, hvals, hact2, hpres, hends, hnd, hsndz, htake⟩ :=
      ih (decAt (decAt deg u) v₀) (acc ++ [(u, v₀)]) n hlen1 hs' hdeg' hact'
    refine ⟨deg', (u, v₀) :: Δ', ?_, hlen', by simp [hΔlen], hvals, hact2, ?_, ?_, ?_, ?_, ?_⟩
    · show (match findDeg1 deg 0 with
        | none => none
        | some v => decodeLoop rest (decAt (decAt deg u) v) (acc ++ [(u, v)]))
        = some (deg', acc ++ ((u, v₀) :: Δ'))
      rw [hfind]
      show decodeLoop rest (decAt (decAt deg u) v₀) (acc ++ [(u, v₀)])
        = some (deg', acc ++ ((u, v₀) :: Δ'))
      rw [hrun, List.append_assoc, List.singleton_append]
    · intro v hv
      exact hpres v (hzero1 v hv)
    · intro e he
      rcases List.mem_cons.mp he with rfl | he'
      · exact ⟨hu, hv₀n, show deg.getD u 0 ≠ 0 by omega,
          show deg.getD v₀ 0 ≠ 0 by rw [hdegv₀]; decide⟩
      · obtain ⟨h1, h2, h3, h4⟩ := hends e he'
        exact ⟨h1, h2, hnz1 e.1 h3, hnz1 e.2 h4⟩
    · rw [List.map_cons]
      rw [List.nodup_cons]
      refine ⟨?_, hnd⟩
      intro hmem
      obtain ⟨e, he, hesnd⟩ := List.mem_map.mp hmem
      have := (hends e he).2.2.2
      rw [hesnd, hD1v] at this
      exact this rfl
    · intro v hv
      rw [List.map_cons] at hv
      rcases List.mem_cons.mp hv with rfl | hv'
      · exact hpres v hD1v
      · exact hsndz v hv'
    · intro k hk
      cases k with
      | zero =>
        intro hmem
        rw [show (((u, v₀) :: Δ').take (0 + 1)).map Prod.snd = [v₀] from rfl] at hmem
        exact huv (show u = v₀ from List.mem_singleton.mp hmem)
      | succ k' =>
        have hk' : k' < Δ'.length := by simpa using hk
        have hget' : ((u, v₀) :: Δ').get ⟨k' + 1, hk⟩ = Δ'.get ⟨k', hk'⟩ := rfl
        rw [hget']
        intro hmem
        rw [show ((u, v₀) :: Δ').take (k' + 1 + 1) = (u, v₀) :: Δ'.take (k' + 1) from rfl,
          List.map_cons] at hmem
        rcases List.mem_cons.mp hmem with h | h
        · have hfst := (hends (Δ'.get ⟨k', hk'⟩) (List.get_mem Δ' k' hk')).2.2.1
          rw [h, hD1v] at hfst
          exact hfst rfl
        · exact htake k' hk' h
/-! ## Ranked edge lists: every edge's second endpoint sits at the edge's own
position in an ordering, and its first endpoint strictly later.  Such an edge
list is always a tree on the ordering's elements. -/

theorem getElem?_some_facts {α : Type _} {l : List α} {i : Nat} {a : α}
    (h : l[i]? = some a) : i < l.length ∧ a ∈ l := by
  obtain ⟨hlt, he⟩ := List.getElem?_eq_some.mp h
  exact ⟨hlt, he ▸ l.getElem_mem hlt⟩

theorem indexOf_getElem? {l : List Nat} {a : Nat} (h : a ∈ l) :
    l[l.indexOf a]? = some a := by
  have hlt := List.indexOf_lt_length.mpr h
  rw [List.getElem?_eq_getElem hlt]
  exact congrArg some (List.indexOf_get hlt)

theorem nodup_getElem?_inj {l : List Nat} (hnd : l.Nodup) {i j a : Nat}
    (hi : l[i]? = some a) (hj : l[j]? = some a) : i = j := by
  obtain ⟨hil, hie⟩ := List.getElem?_eq_some.mp hi
  obtain ⟨hjl, hje⟩ := List.getElem?_eq_some.mp hj
  have h3 : l.get ⟨i, hil⟩ = l.get ⟨j, hjl⟩ := by
    show l[i] = l[j]
    rw [hie, hje]
  have h4 := (List.Nodup.get_inj_iff hnd).mp h3
  simpa using congrArg Fin.val h4

theorem indexOf_eq_of_getElem? {l : List Nat} (hnd : l.Nodup) {k a : Nat}
    (h : l[k]? = some a) : l.indexOf a = k :=
  nodup_getElem?_inj hnd (indexOf_getElem? (getElem?_some_facts h).2) h

theorem ranked_tree_facts (n : Nat) (ord : List Nat) (E : List (Nat × Nat))
    (hordlen : ord.length = n)
    (hordnd : ord.Nodup)
    (hElen : E.length + 1 = n)
    (hsnd : ∀ k : Nat, k < E.length → ∃ x y : Nat, E[k]? = some (x, y) ∧ ord[k]? = some y)
    (hfst : ∀ k x y : Nat, E[k]? = some (x, y) → ∃ j : Nat, k < j ∧ ord[j]? = some x) :
    (∀ u ∈ ord, ∀ v ∈ ord, Relation.ReflTransGen (adjE E) u v) ∧
    (∀ e ∈ E, e.1 ≠ e.2) ∧
    E.Pairwise (fun e e' => e ≠ e' ∧ e ≠ (e'.2, e'.1)) ∧
    ¬ HasCycleE E := by
  have hE? : ∀ {k : Nat} {x y : Nat}, E[k]? = some (x, y) → ord[k]? = some y := by
    intro k x y h
    have hk := (getElem?_some_facts h).1
    obtain ⟨x', y', hE', hord'⟩ := hsnd k hk
    have hpq := Option.some.inj (h.symm.trans hE')
    have hy : y = y' := (Prod.ext_iff.mp hpq).2
    rw [hy]
    exact hord'
  have hn1 : 1 ≤ n := by omega
  obtain ⟨r, hr⟩ : ∃ r, ord[n - 1]? = some r := by
    rw [List.getElem?_eq_getElem (by omega)]
    exact ⟨_, rfl⟩
  have reach : ∀ d k x, ord[k]? = some x → n - 1 - k ≤ d →
      Relation.ReflTransGen (adjE E) x r := by
    intro d
    induction d with
    | zero =>
      intro k x hx hb
      have hk := (getElem?_some_facts hx).1
      have hkn : k = n - 1 := by omega
      subst hkn
      have := Option.some.inj (hx.symm.trans hr)
      subst this
      exact Relation.ReflTransGen.refl
    | succ d ih =>
      intro k x hx hb
      by_cases hk1 : k = n - 1
      · subst hk1
        have := Option.some.inj (hx.symm.trans hr)
        subst this
        exact Relation.ReflTransGen.refl
      · have hk := (getElem?_some_facts hx).1
        have hkE : k < E.length := by omega
        obtain ⟨x', y, hE', hord'⟩ := hsnd k hkE
        have hyx : y = x := Option.some.inj (hord'.symm.trans hx)
        obtain ⟨j, hkj, hordj⟩ := hfst k x' y hE'
        have hmemE : (x', y) ∈ E := (getElem?_some_facts hE').2
        have hstep : adjE E x x' := Or.inr (hyx ▸ hmemE)
        have hjn : j < n := by
          have := (getElem?_some_facts hordj).1
          omega
        exact Relation.ReflTransGen.head hstep (ih j x' hordj (by omega))
  refine ⟨?_, ?_, ?_, ?_⟩
  · -- connectivity
    intro u hu v hv
    obtain ⟨ku, hku⟩ := List.mem_iff_getElem?.mp hu
    obtain ⟨kv, hkv⟩ := List.mem_iff_getElem?.mp hv
    have h1 := reach n ku u hku (by omega)
    have h2 := reach n kv v hkv (by omega)
    have hsym : Symmetric (adjE E) := fun a b h => h.elim Or.inr Or.inl
    exact h1.trans ((Relation.ReflTransGen.symmetric hsym) h2)
  · -- no self-loops
    rintro ⟨x, y⟩ he hxy
    obtain ⟨k, hk⟩ := List.mem_iff_getElem?.mp he
    have hordk : ord[k]? = some y := hE? hk
    obtain ⟨j, hkj, hordj⟩ := hfst k x y hk
    have hxy' : x = y := hxy
    rw [hxy'] at hordj
    have := nodup_getElem?_inj hordnd hordk hordj
    omega
  · -- pairwise-distinct edges in both orientations
    rw [List.pairwise_iff_getElem]
    intro i j hi hj hij
    obtain ⟨x, y, hxy⟩ : ∃ x y, E[i] = (x, y) := ⟨E[i].1, E[i].2, rfl⟩
    obtain ⟨x', y', hxy'⟩ : ∃ x y, E[j] = (x, y) := ⟨E[j].1, E[j].2, rfl⟩
    have hEi : E[i]? = some (x, y) := by rw [List.getElem?_eq_getElem hi, hxy]
    have hEj : E[j]? = some (x', y') := by rw [List.getElem?_eq_getElem hj, hxy']
    constructor
    · intro heq
      rw [hxy, hxy'] at heq
      have hyy : y = y' := (Prod.ext_iff.mp heq).2
      rw [hyy] at hEi
      have := nodup_getElem?_inj hordnd (hE? hEi) (hE? hEj)
      omega
    · intro heq
      rw [hxy, hxy'] at heq
      have hyx : y = x' := (Prod.ext_iff.mp heq).2
      obtain ⟨j2, hjj2, hordj2⟩ := hfst j x' y' hEj
      rw [← hyx] at hordj2
      have := nodup_getElem?_inj hordnd (hE? hEi) hordj2
      omega
  · -- no cycle of length ≥ 3
    rintro ⟨m, f, hm3, hinj, hadj⟩
    have hmem : ∀ i, i < m → f i ∈ ord := by
      intro i hi
      rcases hadj i hi with h | h
      · obtain ⟨k, hk⟩ := List.mem_iff_getElem?.mp h
        obtain ⟨j, _, hordj⟩ := hfst k _ _ hk
        exact (getElem?_some_facts hordj).2
      · obtain ⟨k, hk⟩ := List.mem_iff_getElem?.mp h
        exact (getElem?_some_facts (hE? hk)).2
    obtain ⟨i₀, hi₀R, hmin⟩ := Finset.exists_min_image (Finset.range m)
      (fun i => ord.indexOf (f i)) ⟨0, Finset.mem_range.mpr (by omega)⟩
    rw [Finset.mem_range] at hi₀R
    have hstrict : ∀ j, j < m → j ≠ i₀ → ord.indexOf (f i₀) < ord.indexOf (f j) := by
      intro j hj hne
      have hle := hmin j (Finset.mem_range.mpr hj)
      rcases Nat.lt_or_ge (ord.indexOf (f i₀)) (ord.indexOf (f j)) with h | h
      · exact h
      · exfalso
        have heqI : ord.indexOf (f i₀) = ord.indexOf (f j) := by omega
        have h1 := indexOf_getElem? (hmem i₀ hi₀R)
        have h2 := indexOf_getElem? (hmem j hj)
        rw [heqI] at h1
        have hfe := Option.some.inj (h1.symm.trans h2)
        exact hne (hinj j hj i₀ hi₀R hfe.symm)
    have hneigh : ∀ j, j < m → j ≠ i₀ → adjE E (f i₀) (f j) →
        ∃ x, E[ord.indexOf (f i₀)]? = some (x, f i₀) ∧ f j = x := by
      intro j hj hne hadj'
      rcases hadj' with h | h
      · exfalso
        obtain ⟨k, hk⟩ := List.mem_iff_getElem?.mp h
        have hposj : ord.indexOf (f j) = k := indexOf_eq_of_getElem? hordnd (hE? hk)
        obtain ⟨j2, hkj2, hordj2⟩ := hfst k _ _ hk
        have hposi : ord.indexOf (f i₀) = j2 := indexOf_eq_of_getElem? hordnd hordj2
        have := hstrict j hj hne
        omega
      · obtain ⟨k, hk⟩ := List.mem_iff_getElem?.mp h
        have hposi : ord.indexOf (f i₀) = k := indexOf_eq_of_getElem? hordnd (hE? hk)
        exact ⟨f j, by rw [hposi]; exact hk, rfl⟩
    obtain ⟨is, his_def⟩ : ∃ x, x = (i₀ + 1) % m := ⟨_, rfl⟩
    obtain ⟨ip, hip_def⟩ : ∃ x, x = (if i₀ = 0 then m - 1 else i₀ - 1) := ⟨_, rfl⟩
    have his_lt : is < m := by rw [his_def]; exact Nat.mod_lt _ (by omega)
    have hip_lt : ip < m := by rw [hip_def]; split <;> omega
    have his_eq : is = if i₀ = m - 1 then 0 else i₀ + 1 := by
      rw [his_def]
      by_cases h : i₀ = m - 1
      · rw [if_pos h, h, Nat.sub_add_cancel (by omega), Nat.mod_self]
      · rw [if_neg h]; exact Nat.mod_eq_of_lt (by omega)
    have hip_succ : (ip + 1) % m = i₀ := by
      rw [hip_def]
      by_cases h : i₀ = 0
      · rw [if_pos h, Nat.sub_add_cancel (by omega), Nat.mod_self, h]
      · rw [if_neg h, Nat.sub_add_cancel (by omega)]
        exact Nat.mod_eq_of_lt hi₀R
    have hip_ne : ip ≠ i₀ := by
      rw [hip_def]
      by_cases h : i₀ = 0
      · rw [if_pos h, h]; omega
      · rw [if_neg h]; omega
    have his_ne : is ≠ i₀ := by
      rw [his_eq]
      by_cases h : i₀ = m - 1
      · rw [if_pos h]; omega
      · rw [if_neg h]; omega
    have hisip : is ≠ ip := by
      rw [his_eq, hip_def]
      by_cases h1 : i₀ = m - 1 <;> by_cases h2 : i₀ = 0
      · rw [if_pos h1, if_pos h2]; omega
      · rw [if_pos h1, if_neg h2]; omega
      · rw [if_neg h1, if_pos h2]; omega
      · rw [if_neg h1, if_neg h2]; omega
    have hadj1 : adjE E (f i₀) (f is) := by rw [his_def]; exact hadj i₀ hi₀R
    have hadj2 : adjE E (f i₀) (f ip) := by
      have h := hadj ip hip_lt
      rw [hip_succ] at h
      exact h.elim Or.inr Or.inl
    obtain ⟨x1, he1, hfe1⟩ := hneigh is his_lt his_ne hadj1
    obtain ⟨x2, he2, hfe2⟩ := hneigh ip hip_lt hip_ne hadj2
    have hff : f is = f ip := by
      rw [hfe1, hfe2]
      exact (Prod.ext_iff.mp (Option.some.inj (he1.symm.trans he2))).1
    exact hisip (hinj is his_lt ip hip_lt hff)
/-! ## Decoding a valid Prüfer sequence always yields a tree -/

theorem from_prufer_tree (seq : List Nat) (hseq : ∀ u ∈ seq, u < seq.length + 2) :
    ∃ G : UGraph, from_prufer_sequence seq = .ok G ∧
      G.nodes = List.range (seq.length + 2) ∧
      G.edges.length + 1 = seq.length + 2 ∧
      (∀ u ∈ G.nodes, ∀ v ∈ G.nodes, Relation.ReflTransGen (adjE G.edges) u v) ∧
      (∀ e ∈ G.edges, e.1 ≠ e.2) ∧
      G.edges.Pairwise (fun e e' => e ≠ e' ∧ e ≠ (e'.2, e'.1)) ∧
      ¬ HasCycleE G.edges := by
  -- the initial degree list
  have hgetD₀ : ∀ v, v < seq.length + 2 →
      ((List.range (seq.length + 2)).map (fun i => 1 + seq.count i)).getD v 0
        = seq.count v + 1 := by
    intro v hv
    rw [List.getD_eq_getElem?_getD, List.getElem?_map, List.getElem?_range hv]
    show 1 + seq.count v = seq.count v + 1
    omega
  have hdeg₀ : ∀ v, v < seq.length + 2 →
      ((List.range (seq.length + 2)).map (fun i => 1 + seq.count i)).getD v 0
          = seq.count v + 1 ∨
        (((List.range (seq.length + 2)).map (fun i => 1 + seq.count i)).getD v 0 = 0 ∧
          seq.count v = 0) :=
    fun v hv => Or.inl (hgetD₀ v hv)
  have hact₀ : ((List.range (seq.length + 2)).filter
      (fun v => decide (((List.range (seq.length + 2)).map
        (fun i => 1 + seq.count i)).getD v 0 ≠ 0))).length = seq.length + 2 := by
    rw [List.filter_eq_self.mpr, List.length_range]
    intro x hx
    rw [List.mem_range] at hx
    rw [hgetD₀ x hx]
    exact decide_eq_true (by omega)
  obtain ⟨deg', Δ, hrun, hlen', hΔlen, hvals, hact2, hpres, hends, hnd, hsndz, htake⟩ :=
    decodeLoop_spec seq ((List.range (seq.length + 2)).map (fun i => 1 + seq.count i)) []
      (seq.length + 2) (by simp) hseq hdeg₀ hact₀
  rw [List.nil_append] at hrun
  -- reduce the decoder to its final filter
  have hfp1 : from_prufer_sequence seq =
      (match (List.range (seq.length + 2)).filter (fun v => deg'.getD v 0 == 1) with
       | [a, b] => Except.ok (⟨List.range (seq.length + 2), Δ ++ [(a, b)]⟩ : UGraph)
       | _ => Except.error (NetworkXError.invalidInput "malformed degree state")) := by
    show (if ∀ u ∈ seq, u < seq.length + 2 then
        match decodeLoop seq ((List.range (seq.length + 2)).map fun i => 1 + seq.count i) [] with
        | none => Except.error (NetworkXError.invalidInput "no current leaf available")
        | some r =>
          match (List.range (seq.length + 2)).filter (fun v => r.1.getD v 0 == 1) with
          | [a, b] => Except.ok (⟨List.range (seq.length + 2), r.2 ++ [(a, b)]⟩ : UGraph)
          | _ => Except.error (NetworkXError.invalidInput "malformed degree state")
      else Except.error (NetworkXError.invalidInput "sequence value out of range")) =
      (match (List.range (seq.length + 2)).filter (fun v => deg'.getD v 0 == 1) with
       | [a, b] => Except.ok (⟨List.range (seq.length + 2), Δ ++ [(a, b)]⟩ : UGraph)
       | _ => Except.error (NetworkXError.invalidInput "malformed degree state"))
    rw [if_pos hseq, hrun]
  -- the final filter has exactly the two remaining degree-one nodes
  have hfilter_eq : (List.range (seq.length + 2)).filter (fun v => deg'.getD v 0 == 1)
      = (List.range (seq.length + 2)).filter (fun v => decide (deg'.getD v 0 ≠ 0)) := by
    refine List.filter_congr ?_
    intro x hx
    rw [List.mem_range] at hx
    show (deg'.getD x 0 == 1) = decide (deg'.getD x 0 ≠ 0)
    rcases hvals x hx with h | h <;> rw [h] <;> decide
  have hftwo : ((List.range (seq.length + 2)).filter
      (fun v => deg'.getD v 0 == 1)).length = 2 := by
    rw [hfilter_eq]
    exact hact2
  obtain ⟨a, b, hab⟩ := List.length_eq_two.mp hftwo
  have hfnd : ((List.range (seq.length + 2)).filter
      (fun v => deg'.getD v 0 == 1)).Nodup := (List.nodup_range _).filter _
  rw [hab] at hfnd
  have hab_ne : a ≠ b := by
    rcases List.nodup_cons.mp hfnd with ⟨hnotin, _⟩
    exact fun h => hnotin (h ▸ List.mem_cons_self a [])
  have hamem : a ∈ (List.range (seq.length + 2)).filter (fun v => deg'.getD v 0 == 1) := by
    rw [hab]; exact List.mem_cons_self a [b]
  have hbmem : b ∈ (List.range (seq.length + 2)).filter (fun v => deg'.getD v 0 == 1) := by
    rw [hab]; exact List.mem_cons_of_mem a (List.mem_cons_self b [])
  obtain ⟨haR, haB⟩ := List.mem_filter.mp hamem
  obtain ⟨hbR, hbB⟩ := List.mem_filter.mp hbmem
  rw [List.mem_range] at haR hbR
  have haD : deg'.getD a 0 = 1 := by simpa using haB
  have hbD : deg'.getD b 0 = 1 := by simpa using hbB
  -- the ordering of the nodes by the step at which they were retired
  have hsndlen : (Δ.map Prod.snd).length = seq.length := by rw [List.length_map, hΔlen]
  have hordlen : (Δ.map Prod.snd ++ [b, a]).length = seq.length + 2 := by
    rw [List.length_append, hsndlen]
    rfl
  have hordnd : (Δ.map Prod.snd ++ [b, a]).Nodup := by
    refine List.Nodup.append hnd ?_ ?_
    · refine List.nodup_cons.mpr ⟨?_, List.nodup_singleton a⟩
      intro h
      exact hab_ne (List.mem_singleton.mp h).symm
    · intro v hv hv2
      have h0 := hsndz v hv
      rcases List.mem_cons.mp hv2 with rfl | hv3
      · rw [h0] at hbD; exact absurd hbD (by decide)
      · rw [List.mem_singleton.mp hv3] at h0
        rw [h0] at haD
        exact absurd haD (by decide)
  have hElen2 : (Δ ++ [(a, b)]).length + 1 = seq.length + 2 := by
    rw [List.length_append, hΔlen]
    rfl
  -- every node below n occurs in the ordering
  have hordsub : (Δ.map Prod.snd ++ [b, a]).toFinset ⊆ Finset.range (seq.length + 2) := by
    intro v hv
    rw [List.mem_toFinset] at hv
    rw [Finset.mem_range]
    rcases List.mem_append.mp hv with h | h
    · obtain ⟨e, he, hev⟩ := List.mem_map.mp h
      rw [← hev]
      exact (hends e he).2.1
    · rcases List.mem_cons.mp h with rfl | h2
      · exact hbR
      · rw [List.mem_singleton.mp h2]
        exact haR
  have hord_eq : (Δ.map Prod.snd ++ [b, a]).toFinset = Finset.range (seq.length + 2) := by
    refine Finset.eq_of_subset_of_card_le hordsub ?_
    rw [List.toFinset_card_of_nodup hordnd, hordlen, Finset.card_range]
  have hcover : ∀ v, v < seq.length + 2 → v ∈ Δ.map Prod.snd ++ [b, a] := by
    intro v hv
    rw [← List.mem_toFinset, hord_eq, Finset.mem_range]
    exact hv
  -- the ranked-edge-list hypotheses
  have hsnd2 : ∀ k : Nat, k < (Δ ++ [(a, b)]).length → ∃ x y : Nat,
      (Δ ++ [(a, b)])[k]? = some (x, y) ∧ (Δ.map Prod.snd ++ [b, a])[k]? = some y := by
    intro k hk
    rw [List.length_append, List.length_singleton] at hk
    by_cases hkΔ : k < Δ.length
    · obtain ⟨x, y, hxy⟩ : ∃ x y, Δ[k] = (x, y) := ⟨Δ[k].1, Δ[k].2, rfl⟩
      refine ⟨x, y, ?_, ?_⟩
      · rw [List.getElem?_append_left hkΔ, List.getElem?_eq_getElem hkΔ, hxy]
      · rw [List.getElem?_append_left (show k < (Δ.map Prod.snd).length by
          rw [List.length_map]; exact hkΔ)]
        rw [List.getElem?_map, List.getElem?_eq_getElem hkΔ, hxy]
        rfl
    · have hkeq : k = Δ.length := by omega
      refine ⟨a, b, ?_, ?_⟩
      · rw [List.getElem?_append_right (show Δ.length ≤ k by omega), hkeq]
        simp
      · rw [List.getElem?_append_right (show (Δ.map Prod.snd).length ≤ k by
          rw [List.length_map]; omega), hkeq, List.length_map]
        simp
  have hfst2 : ∀ k x y : Nat, (Δ ++ [(a, b)])[k]? = some (x, y) →
      ∃ j : Nat, k < j ∧ (Δ.map Prod.snd ++ [b, a])[j]? = some x := by
    intro k x y hk
    have hkl := (getElem?_some_facts hk).1
    rw [List.length_append, List.length_singleton] at hkl
    by_cases hkΔ : k < Δ.length
    · have hΔk : Δ[k]? = some (x, y) := by
        rw [List.getElem?_append_left hkΔ] at hk
        exact hk
      have hmem : (x, y) ∈ Δ := (getElem?_some_facts hΔk).2
      have hxn : x < seq.length + 2 := (hends (x, y) hmem).1
      have hxord : x ∈ Δ.map Prod.snd ++ [b, a] := hcover x hxn
      obtain ⟨j, hj⟩ := List.mem_iff_getElem?.mp hxord
      refine ⟨j, ?_, hj⟩
      by_contra hjk
      have hjk' : j ≤ k := by omega
      have hjm : j < (Δ.map Prod.snd).length := by rw [List.length_map]; omega
      have hj1 : (Δ.map Prod.snd)[j]? = some x := by
        rw [List.getElem?_append_left hjm] at hj
        exact hj
      have hj2 : ((Δ.map Prod.snd).take (k + 1))[j]? = some x :=
        (List.getElem?_take_of_lt (by omega)).trans hj1
      have hj3 : x ∈ (Δ.take (k + 1)).map Prod.snd := by
        rw [List.map_take]
        exact (getElem?_some_facts hj2).2
      have hget : Δ.get ⟨k, hkΔ⟩ = (x, y) := by
        have := List.getElem?_eq_getElem hkΔ
        rw [hΔk] at this
        exact (Option.some.inj this).symm
      have := htake k (by omega)
      rw [show Δ.get ⟨k, by omega⟩ = (x, y) from hget] at this
      exact this hj3
    · have hkeq : k = Δ.length := by omega
      have hxa : x = a := by
        rw [List.getElem?_append_right (show Δ.length ≤ k by omega), hkeq] at hk
        simp at hk
        exact hk.1.symm
      refine ⟨Δ.length + 1, by omega, ?_⟩
      rw [List.getElem?_append_right (show (Δ.map Prod.snd).length ≤ Δ.length + 1 by
        rw [List.length_map]; omega), List.length_map]
      simp [hxa]
  obtain ⟨hconn, hloop, hpw, hacy⟩ := ranked_tree_facts (seq.length + 2)
    (Δ.map Prod.snd ++ [b, a]) (Δ ++ [(a, b)]) hordlen hordnd hElen2 hsnd2 hfst2
  refine ⟨⟨List.range (seq.length + 2), Δ ++ [(a, b)]⟩, ?_, rfl, hElen2, ?_, hloop, hpw, hacy⟩
  · rw [hfp1, hab]
  · intro u hu v hv
    rw [List.mem_range] at hu hv
    exact hconn u (hcover u hu) v (hcover v hv)
/-- C5: for every `n ≥ 1`, `random_tree(n, seed)` succeeds and returns a graph with
exactly `n` nodes and `n - 1` edges that is connected and acyclic — a tree.
(spec-modelled: the Prüfer decoder and the random sampler are vendored networkx /
Python `random` code outside `src/`, embedded from the spec's description.) -/
theorem random_tree_is_tree (n : Nat) (seed : Int) (h : 1 ≤ n) :
    ∃ G : UGraph, random_tree n seed = .ok G ∧
      G.nodes.length = n ∧ G.edges.length = n - 1 ∧ G.Connected ∧ G.Acyclic := by
  by_cases h1 : n = 1
  · subst h1
    refine ⟨empty_graph 1, rfl, rfl, rfl, ?_, ?_, List.Pairwise.nil, ?_⟩
    · intro u hu v hv
      have hu0 : u = 0 := by simpa [empty_graph] using hu
      have hv0 : v = 0 := by simpa [empty_graph] using hv
      rw [hu0, hv0]
    · intro e he
      exact absurd he (List.not_mem_nil e)
    · rintro ⟨m, f, hm3, hinj, hadj⟩
      rcases hadj 0 (by omega) with hmem | hmem <;>
        exact absurd hmem (List.not_mem_nil _)
  · have h0 : ¬ n = 0 := by omega
    have hlen : (prufer_sample n seed).length = n - 2 := by simp [prufer_sample]
    have hmem : ∀ u ∈ prufer_sample n seed, u < (prufer_sample n seed).length + 2 := by
      intro u hu
      rw [hlen]
      simp only [prufer_sample, List.mem_map, List.mem_range] at hu
      obtain ⟨i, hi, rfl⟩ := hu
      have hlt : choiceRange seed i n < n := Nat.mod_lt _ (by omega)
      omega
    obtain ⟨G, hok, hnodes, hElen, hconn, hloop, hpw, hacy⟩ :=
      from_prufer_tree (prufer_sample n seed) hmem
    have hn2 : (prufer_sample n seed).length + 2 = n := by rw [hlen]; omega
    refine ⟨G, ?_, ?_, ?_, hconn, hloop, hpw, hacy⟩
    · show random_tree n seed = .ok G
      rw [random_tree, if_neg h0, if_neg h1]
      exact hok
    · rw [hnodes, List.length_range, hn2]
    · rw [hn2] at hElen
      omega

theorem random_tree_is_tree_witness :
    1 ≤ 3 ∧ ∃ G : UGraph, random_tree 3 0 = .ok G ∧
      G.nodes.length = 3 ∧ G.edges.length = 3 - 1 ∧ G.Connected ∧ G.Acyclic :=
  ⟨by decide, random_tree_is_tree 3 0 (by decide)⟩
